import Mathlib

/-!
# kontr2.c : two producers and one consumer over a shared memory object

A shallow embedding of `src/kontr2.c`.

* `sigHandler`, `writeRowToShm`, `readRowFromShm` are the C functions of the same name.
* The two System V semaphores of `main` are `SemSet` (slot 0 = row counter, slot 1 = the
  semaphore operated on by `writeP` / `writeV`).
* The shared memory object is a file of `STR_LEN`-byte records.  `shmId` is opened once in
  `main` before `createProcess` forks, so the three processes share one open file
  description and therefore one file offset (`Shm.pos`, counted in records).
* Each process is a deterministic step function over a program counter, and an execution of
  the three processes is a schedule (`List Actor`).  A signal sent by `kill` runs
  `sigHandler` in the receiving process at once.

`executeChildProcess` and `executeParentProcess` are embedded twice, at two granularities.

* Turn by turn (`childFor` / `stepChild`, `parentFor` / `stepParent`, `exec`, `init`): one
  step of a child is `semop(lock)`, or the whole block between the two `semop` calls
  (`lseek`, `GETVAL`, the `for` loop, `SETVAL`: one producer turn), or `semop(unlock)`, or
  `kill`; one step of the parent is a `kill`, or the `while`/`if` test together with `lseek`,
  or the whole inner `for` loop.  These runs stop at the return from the two functions.
  `deliver` adds the delivery of one more signal to a child, which interrupts a `semop` the
  child sleeps in.
* Call by call (`childCall`, `parentCall`, `run`, `start`): one step per system call
  (`semop`, `lseek`, `GETVAL`, each `write`, `SETVAL`, `kill`, each `read`), so that the calls
  of the three processes interleave freely, and the rest of `main` is included: every
  process ends with `shm_unlink` and `semctl(IPC_RMID)`, after which `semop` and `SETVAL`
  fail and `GETVAL` gives -1.  A child that sleeps in `semop` cannot step; the return values
  of `semop`, `lseek`, `semctl(SETVAL)`, `write` and `read` are ignored as in the source.

Model parameters `N` and `C` stand for `NUM_ROW_ALL` and `NUM_ROW_PART`; the compiled-in
values are `NUM_ROW_ALL = 1000` and `NUM_ROW_PART = 75`.  `curRow` is an integer in the runs
call by call (it can be -1); the other counters are natural numbers.  Integers are unbounded:
`N` is taken to fit a C `int`.
-/

namespace Kontr2

/-! ## Constants of the source -/

/-- The macro `NUM_ROW_PART`. -/
def NUM_ROW_PART : Nat := 75

/-- The macro `NUM_ROW_ALL`. -/
def NUM_ROW_ALL : Nat := 1000

/-- Signal number of `SIGUSR1` (Linux value from `signal.h`). -/
def SIGUSR1 : Int := 10

/-- Signal number of `SIGUSR2` (Linux value from `signal.h`). -/
def SIGUSR2 : Int := 12

/-! ## Signal latches -/

/-- The two global flags `startWrite` and `startRead`; every process has its own copy. -/
structure Latches where
  startWrite : Int
  startRead : Int
deriving DecidableEq, Repr

/-- The function `sigHandler`: `SIGUSR1` sets `startRead`, `SIGUSR2` sets `startWrite`,
any other signal only prints a message. -/
def sigHandler (sig : Int) (l : Latches) : Latches :=
  if sig = SIGUSR1 then { l with startRead := 1 }
  else if sig = SIGUSR2 then { l with startWrite := 1 }
  else l

/-! ## Shared memory object -/

/-- One record of the shared object: the row number and the pid printed by `sprintf`
in `writeRowToShm`.  The `tv_usec` field is a clock reading and is left out. -/
structure Row where
  rowIndex : Nat
  pid : Nat
deriving DecidableEq, Repr

/-- A block of zero bytes (what a hole in the file reads as). -/
def Row.zero : Row := ⟨0, 0⟩

/-- The shared memory object as a file of records, with the file offset in records. -/
structure Shm where
  file : List Row
  pos : Nat
deriving DecidableEq, Repr

/-- The effect of `write` of one record at offset `pos`. -/
def writeAt (file : List Row) (pos : Nat) (r : Row) : List Row :=
  if pos < file.length then file.set pos r
  else file ++ List.replicate (pos - file.length) Row.zero ++ [r]

/-- The call `lseek(shmId, 0, SEEK_END)`. -/
def lseekEnd (m : Shm) : Shm := { m with pos := m.file.length }

/-- The call `lseek(shmId, i * STR_LEN, SEEK_SET)`, offset given in records. -/
def lseekSet (m : Shm) (i : Nat) : Shm := { m with pos := i }

/-- The function `writeRowToShm`: formats row `curRow` with the writer pid and writes
`STR_LEN` bytes at the current offset. -/
def writeRowToShm (m : Shm) (pid curRow : Nat) : Shm :=
  { file := writeAt m.file m.pos ⟨curRow, pid⟩, pos := m.pos + 1 }

/-- The function `readRowFromShm`: reads `STR_LEN` bytes at the current offset and prints
them.  The result is the printed record; at end of file `read` transfers nothing, the offset
stays, and the printed buffer holds no record (`none`). -/
def readRowFromShm (m : Shm) : Shm × Option Row :=
  match m.file[m.pos]? with
  | some r => ({ m with pos := m.pos + 1 }, some r)
  | none => (m, none)

/-! ## Semaphores -/

/-- A `struct sembuf`. -/
structure Sembuf where
  sem_num : Nat
  sem_op : Int
  sem_flg : Nat
deriving DecidableEq, Repr

/-- The initialiser `struct sembuf writeP = {1, -1, 0}`. -/
def writeP : Sembuf := ⟨1, -1, 0⟩

/-- The initialiser `struct sembuf writeV = {1, 1, 0}`. -/
def writeV : Sembuf := ⟨1, 1, 0⟩

/-- The semaphore set created by `semget(IPC_PRIVATE, 2, ...)`: slot 0 and slot 1. -/
structure SemSet where
  sem0 : Nat
  sem1 : Nat
deriving DecidableEq, Repr

/-- Value of slot `n`, if the set has such a slot. -/
def SemSet.getval (s : SemSet) : Nat → Option Nat
  | 0 => some s.sem0
  | 1 => some s.sem1
  | _ => none

/-- The largest value a semaphore can hold (`SEMVMX` of Linux). -/
def SEMVMX : Nat := 32767

/-- Slot `n` with the new value `v`. -/
def SemSet.store (s : SemSet) (n v : Nat) : SemSet :=
  match n with
  | 0 => { s with sem0 := v }
  | 1 => { s with sem1 := v }
  | _ => s

/-- The call `semctl(semId, n, SETVAL, v)`: a value above `SEMVMX` is refused (`ERANGE`) and
the slot keeps its value. -/
def SemSet.setval (s : SemSet) (n v : Nat) : SemSet :=
  if v ≤ SEMVMX then s.store n v else s

/-- Outcome of one `semop` call with a single operation. -/
inductive SemopResult where
  | done (s : SemSet)
  | blocked
  | failed
deriving DecidableEq, Repr

/-- The call `semop(semId, &b, 1)`: a positive `sem_op` is added; a negative one is
subtracted when the value is large enough and otherwise the caller sleeps (or fails under
`IPC_NOWAIT`, bit 11 of `sem_flg`); zero waits for the value zero.  The `ERANGE` failure of
an addition that would pass `SEMVMX` is left out: the only operations are `writeP` and
`writeV` on slot 1, whose value stays far below that bound. -/
def semop (s : SemSet) (b : Sembuf) : SemopResult :=
  match s.getval b.sem_num with
  | none => .failed
  | some v =>
    if 0 < b.sem_op then .done (s.store b.sem_num (v + b.sem_op.toNat))
    else if b.sem_op < 0 then
      if b.sem_op.natAbs ≤ v then .done (s.store b.sem_num (v - b.sem_op.natAbs))
      else if b.sem_flg.testBit 11 then .failed else .blocked
    else if v = 0 then .done s
    else if b.sem_flg.testBit 11 then .failed else .blocked

/-! ## Processes -/

/-- The two child processes of `main`: `A` is created first, `B` second. -/
inductive Producer where
  | A
  | B
deriving DecidableEq, Repr

/-- The third argument of `executeChildProcess` in `main`: `writeP` for the first child,
`writeV` for the second. -/
def lockOf : Producer → Sembuf
  | .A => writeP
  | .B => writeV

/-- The fourth argument of `executeChildProcess` in `main`: `writeV` for the first child,
`writeP` for the second. -/
def unlockOf : Producer → Sembuf
  | .A => writeV
  | .B => writeP

/-- The value of `getpid()` in a child: some fixed, pairwise different numbers. -/
def getpid : Producer → Nat
  | .A => 1
  | .B => 2

/-- Program counter of a child inside `executeChildProcess`. -/
inductive ChildPc where
  | poll        -- at `while (1) if (startWrite)`, before `semop(lock)`
  | locked      -- `semop(lock)` done, before `lseek`
  | unlock      -- `SETVAL` done, before `semop(unlock)` of the normal path
  | unlockExit  -- `curRow > NUM_ROW_ALL` seen, before `semop(unlock)` of the exit path
  | kill        -- before `kill(getppid(), SIGUSR1)`
  | returned    -- after `return`
deriving DecidableEq, Repr

/-- Program counter of the parent inside `executeParentProcess`. -/
inductive ParentPc where
  | kill0     -- before `kill(pids[0], SIGUSR2)`
  | kill1     -- before `kill(pids[1], SIGUSR2)`
  | loop      -- at the test of `while (i < NUM_ROW_ALL)`
  | chunk     -- after `lseek`, before the inner `for` loop
  | returned  -- after the `while` loop
deriving DecidableEq, Repr

/-- Local state of a child. -/
structure Child where
  pc : ChildPc
  latches : Latches
deriving DecidableEq, Repr

/-- Local state of the parent: `out` collects what `readRowFromShm` printed, one list per
run of the inner `for` loop. -/
structure Parent where
  pc : ParentPc
  latches : Latches
  i : Nat
  out : List (List (Option Row))
deriving DecidableEq, Repr

/-- State of the three processes and of the objects they share. -/
structure Sys where
  shm : Shm
  sem : SemSet
  a : Child
  b : Child
  par : Parent
deriving DecidableEq, Repr

/-- Local state of child `p`. -/
def Sys.child (s : Sys) : Producer → Child
  | .A => s.a
  | .B => s.b

/-- Replace the local state of child `p`. -/
def Sys.setChild (s : Sys) (p : Producer) (c : Child) : Sys :=
  match p with
  | .A => { s with a := c }
  | .B => { s with b := c }

/-- The loop `for (i = 0; i < NUM_ROW_PART; i++)` of `executeChildProcess` with `k`
iterations left: `curRow++`, leave on `curRow > NUM_ROW_ALL` (result flag `true`), else
`writeRowToShm`.  Returns the file, the final `curRow`, and whether the exit path was taken. -/
def childFor (N pid : Nat) : Nat → Shm → Nat → Shm × Nat × Bool
  | 0, m, curRow => (m, curRow, false)
  | k + 1, m, curRow =>
    if curRow + 1 > N then (m, curRow + 1, true)
    else childFor N pid k (writeRowToShm m pid (curRow + 1)) (curRow + 1)

/-- Continue child `p` after a `semop` call whose return value the code ignores. -/
def afterSemop (s : Sys) (p : Producer) (r : SemopResult) (next : ChildPc) : Option Sys :=
  match r with
  | .done sem => some ({ s with sem := sem }.setChild p { s.child p with pc := next })
  | .failed => some (s.setChild p { s.child p with pc := next })
  | .blocked => none

/-- One step of child `p` in `executeChildProcess`; `none` when the child sleeps in `semop`
or has returned. -/
def stepChild (N C : Nat) (p : Producer) (s : Sys) : Option Sys :=
  match (s.child p).pc with
  | .poll =>
    if (s.child p).latches.startWrite ≠ 0 then afterSemop s p (semop s.sem (lockOf p)) .locked
    else some s
  | .locked =>
    match childFor N (getpid p) C (lseekEnd s.shm) s.sem.sem0 with
    | (m, _, true) => some ({ s with shm := m }.setChild p { s.child p with pc := .unlockExit })
    | (m, curRow, false) =>
      some ({ s with shm := m, sem := s.sem.setval 0 curRow }.setChild p
        { s.child p with pc := .unlock })
  | .unlock => afterSemop s p (semop s.sem (unlockOf p)) .poll
  | .unlockExit => afterSemop s p (semop s.sem (unlockOf p)) .kill
  | .kill =>
    some ({ s with par := { s.par with latches := sigHandler SIGUSR1 s.par.latches } }.setChild p
      { s.child p with pc := .returned })
  | .returned => none

/-- The inner loop `for (j = 0; j < NUM_ROW_PART; j++)` of `executeParentProcess` with `k`
iterations left: `i++`, `break` on `i > NUM_ROW_ALL`, else `readRowFromShm`.  `acc` is what
the loop has printed so far. -/
def parentFor (N : Nat) : Nat → Shm → Nat → List (Option Row) → Shm × Nat × List (Option Row)
  | 0, m, i, acc => (m, i, acc)
  | k + 1, m, i, acc =>
    if i + 1 > N then (m, i + 1, acc)
    else parentFor N k (readRowFromShm m).1 (i + 1) (acc ++ [(readRowFromShm m).2])

/-- One step of the parent in `executeParentProcess`; `none` once it has returned.  A signal
sent by `kill` runs the handler of the receiving process. -/
def stepParent (N C : Nat) (s : Sys) : Option Sys :=
  match s.par.pc with
  | .kill0 =>
    some { s with a := { s.a with latches := sigHandler SIGUSR2 s.a.latches },
                  par := { s.par with pc := .kill1 } }
  | .kill1 =>
    some { s with b := { s.b with latches := sigHandler SIGUSR2 s.b.latches },
                  par := { s.par with pc := .loop, i := 0 } }
  | .loop =>
    if s.par.i < N then
      if s.par.latches.startRead ≠ 0 then
        some { s with shm := lseekSet s.shm s.par.i, par := { s.par with pc := .chunk } }
      else some s
    else some { s with par := { s.par with pc := .returned } }
  | .chunk =>
    match parentFor N C s.shm s.par.i [] with
    | (m, i, printed) =>
      some { s with shm := m, par := { s.par with pc := .loop, i := i, out := s.par.out ++ [printed] } }
  | .returned => none

/-- Who takes the next step. -/
inductive Actor where
  | child (p : Producer)
  | parent
deriving DecidableEq, Repr

/-- One step of the system by the chosen process. -/
def step (N C : Nat) (s : Sys) : Actor → Option Sys
  | .child p => stepChild N C p s
  | .parent => stepParent N C s

/-- Run a schedule; `none` when a scheduled process cannot step. -/
def exec (N C : Nat) : Sys → List Actor → Option Sys
  | s, [] => some s
  | s, x :: xs =>
    match step N C s x with
    | none => none
    | some t => exec N C t xs

/-- The state after the initialisation in `main`: both flags 0, both semaphores set to 0 by
`SETVAL`, a fresh shared object, the children at the top of `executeChildProcess` and the
parent at the top of `executeParentProcess`. -/
def init : Sys :=
  { shm := ⟨[], 0⟩
    sem := ⟨0, 0⟩
    a := ⟨.poll, ⟨0, 0⟩⟩
    b := ⟨.poll, ⟨0, 0⟩⟩
    par := ⟨.kill0, ⟨0, 0⟩, 0, []⟩ }

/-- Run one process alone for at most `n` steps, stopping when it cannot step. -/
def runAlone (N C : Nat) (x : Actor) : Nat → Sys → Sys
  | 0, s => s
  | n + 1, s =>
    match step N C s x with
    | none => s
    | some t => runAlone N C x n t

/-! ## Notions used to state the properties -/

/-- Whether a child at this program counter is between the completion of its `semop(lock)`
and the completion of its `semop(unlock)`. -/
def inRegion : ChildPc → Bool
  | .locked => true
  | .unlock => true
  | .unlockExit => true
  | _ => false

/-- The records with row numbers `c + 1, ..., c + n` written by process `pid`. -/
def turnRows (pid c n : Nat) : List Row :=
  (List.range' (c + 1) n).map fun r => ⟨r, pid⟩

/-- Closed form of the file written by a sequence of turns, the first of which is turn
number `k`: turn number `j` starts at row counter `C * min j (N / C)`. -/
def fileFrom (N C : Nat) : Nat → List Producer → List Row
  | _, [] => []
  | k, p :: ps =>
    turnRows (getpid p) (C * min k (N / C)) (min C (N - C * min k (N / C)))
      ++ fileFrom N C (k + 1) ps

/-- Invariant of the token semaphore (slot 1). -/
def TokInv (s : Sys) : Prop :=
  s.sem.sem1 + (if inRegion s.a.pc then 1 else 0) = (if inRegion s.b.pc then 1 else 0)

/-- Invariant of the parent in every execution: how far `i` has got and the sizes of the
chunks printed so far. -/
def ParCount (N C : Nat) (s : Sys) : Prop :=
  (s.par.pc = .kill0 ∨ s.par.pc = .kill1 → s.par.i = 0 ∧ s.par.out = []) ∧
  (s.par.pc = .chunk → s.par.i < N) ∧
  (s.par.pc = .returned → N ≤ s.par.i) ∧
  (s.par.i ≤ N → C ∣ s.par.i ∧ s.par.out.map List.length = List.replicate (s.par.i / C) C) ∧
  (N < s.par.i → s.par.i = N + 1 ∧ N % C ≠ 0 ∧
    s.par.out.map List.length = List.replicate (N / C) C ++ [N % C])

/-! ## Delivery of a signal to a child -/

/-- Program counter of a child, call by call. -/
inductive ChildAt where
  | poll        -- at `while (1) if (startWrite)`, before `semop(lock)`
  | seek        -- before `lseek(shmId, 0, SEEK_END)`
  | getval      -- before `curRow = semctl(semId, 0, GETVAL, NULL)`
  | iter        -- at the test `i < NUM_ROW_PART` of the `for` loop
  | unlock      -- `SETVAL` done, before `semop(unlock)` of the normal path
  | unlockExit  -- `curRow > NUM_ROW_ALL` seen, before `semop(unlock)` of the exit path
  | kill        -- before `kill(getppid(), SIGUSR1)`
  | returned    -- back in `main`, before `shm_unlink` and `semctl(IPC_RMID)`
  | exited      -- after `return` of `main`
deriving DecidableEq, Repr

/-- Program counter of the parent, call by call. -/
inductive ParentAt where
  | kill0     -- before `kill(pids[0], SIGUSR2)`
  | kill1     -- before `kill(pids[1], SIGUSR2)`
  | loop      -- at the test of `while (i < NUM_ROW_ALL)`
  | iter      -- at the test `j < NUM_ROW_PART` of the inner `for` loop
  | returned  -- back in `main`, before `shm_unlink` and `semctl(IPC_RMID)`
  | exited    -- after `return` of `main`
deriving DecidableEq, Repr

/-- Local variables of a child: the flags, `curRow` and `i` of `executeChildProcess`. -/
structure ChildVars where
  pc : ChildAt
  latches : Latches
  curRow : Int
  i : Nat
deriving DecidableEq, Repr

/-- Local variables of the parent: the flags, `i` and `j` of `executeParentProcess`, and
what `readRowFromShm` has printed so far. -/
structure ParentVars where
  pc : ParentAt
  latches : Latches
  i : Nat
  j : Nat
  out : List (Option Row)
deriving DecidableEq, Repr

/-- State of the three processes and of the objects they share; `removed` tells whether
`semctl(semId, 0, IPC_RMID, NULL)` has been done. -/
structure World where
  shm : Shm
  sem : SemSet
  removed : Bool
  a : ChildVars
  b : ChildVars
  par : ParentVars
deriving DecidableEq, Repr

/-- Local variables of child `p`. -/
def World.child (w : World) : Producer → ChildVars
  | .A => w.a
  | .B => w.b

/-- Replace the local variables of child `p`. -/
def World.setChild (w : World) (p : Producer) (c : ChildVars) : World :=
  match p with
  | .A => { w with a := c }
  | .B => { w with b := c }

/-- The other child. -/
def Producer.other : Producer → Producer
  | .A => .B
  | .B => .A

/-- The call `semctl(semId, 0, GETVAL, NULL)`: -1 once the set has been removed. -/
def semctlGetval (w : World) : Int :=
  if w.removed then -1 else (w.sem.sem0 : Int)

/-- The call `semctl(semId, 0, SETVAL, v)`: fails, leaving the slot as it is, once the set
has been removed, and for a value outside `0 .. SEMVMX`. -/
def semctlSetval (w : World) (v : Int) : SemSet :=
  if w.removed then w.sem
  else if v < 0 then w.sem
  else w.sem.setval 0 v.toNat

/-- The call `semop(semId, &b, 1)`: fails once the set has been removed. -/
def semopCall (w : World) (b : Sembuf) : SemopResult :=
  if w.removed then .failed else semop w.sem b

/-- Continue child `p` at `next` after a `semop` call whose return value the code ignores. -/
def afterSemopCall (w : World) (p : Producer) (next : ChildAt) : SemopResult → Option World
  | .done sem => some ({ w with sem := sem }.setChild p { w.child p with pc := next })
  | .failed => some (w.setChild p { w.child p with pc := next })
  | .blocked => none

/-- One call of child `p`; `none` when the child sleeps in `semop` or has exited.  At `iter`
one round of the `for` loop is run: `curRow++`, then the exit path on
`curRow > NUM_ROW_ALL` and `writeRowToShm` otherwise; when `i < NUM_ROW_PART` fails, `SETVAL`
is called. -/
def childCall (N C : Nat) (p : Producer) (w : World) : Option World :=
  match (w.child p).pc with
  | .poll =>
    if (w.child p).latches.startWrite ≠ 0 then
      afterSemopCall w p .seek (semopCall w (lockOf p))
    else some w
  | .seek => some ({ w with shm := lseekEnd w.shm }.setChild p { w.child p with pc := .getval })
  | .getval =>
    some (w.setChild p { w.child p with pc := .iter, curRow := semctlGetval w, i := 0 })
  | .iter =>
    if (w.child p).i < C then
      if (w.child p).curRow + 1 > (N : Int) then
        some (w.setChild p
          { w.child p with pc := .unlockExit, curRow := (w.child p).curRow + 1 })
      else
        some ({ w with
            shm := writeRowToShm w.shm (getpid p) ((w.child p).curRow + 1).toNat }.setChild p
          { w.child p with curRow := (w.child p).curRow + 1, i := (w.child p).i + 1 })
    else
      some ({ w with sem := semctlSetval w (w.child p).curRow }.setChild p
        { w.child p with pc := .unlock })
  | .unlock => afterSemopCall w p .poll (semopCall w (unlockOf p))
  | .unlockExit => afterSemopCall w p .kill (semopCall w (unlockOf p))
  | .kill =>
    some ({ w with par := { w.par with latches := sigHandler SIGUSR1 w.par.latches } }.setChild p
      { w.child p with pc := .returned })
  | .returned => some ({ w with removed := true }.setChild p { w.child p with pc := .exited })
  | .exited => none

/-- One call of the parent; `none` once it has exited.  At `iter` one round of the inner
`for` loop is run: `i++`, then `break` on `i > NUM_ROW_ALL` and `readRowFromShm`
otherwise. -/
def parentCall (N C : Nat) (w : World) : Option World :=
  match w.par.pc with
  | .kill0 =>
    some { w with a := { w.a with latches := sigHandler SIGUSR2 w.a.latches },
                  par := { w.par with pc := .kill1 } }
  | .kill1 =>
    some { w with b := { w.b with latches := sigHandler SIGUSR2 w.b.latches },
                  par := { w.par with pc := .loop, i := 0 } }
  | .loop =>
    if w.par.i < N then
      if w.par.latches.startRead ≠ 0 then
        some { w with shm := lseekSet w.shm w.par.i, par := { w.par with pc := .iter, j := 0 } }
      else some w
    else some { w with par := { w.par with pc := .returned } }
  | .iter =>
    if w.par.j < C then
      if w.par.i + 1 > N then
        some { w with par := { w.par with pc := .loop, i := w.par.i + 1 } }
      else
        some { w with
          shm := (readRowFromShm w.shm).1
          par := { w.par with i := w.par.i + 1, j := w.par.j + 1,
                              out := w.par.out ++ [(readRowFromShm w.shm).2] } }
    else some { w with par := { w.par with pc := .loop } }
  | .returned => some { w with removed := true, par := { w.par with pc := .exited } }
  | .exited => none

/-- One call by the chosen process. -/
def call (N C : Nat) (w : World) : Actor → Option World
  | .child p => childCall N C p w
  | .parent => parentCall N C w

/-- Run a schedule call by call; `none` when a scheduled process cannot go on. -/
def run (N C : Nat) : World → List Actor → Option World
  | w, [] => some w
  | w, x :: xs =>
    match call N C w x with
    | none => none
    | some t => run N C t xs

/-- The state after the initialisation in `main`, for `run`. -/
def start : World :=
  { shm := ⟨[], 0⟩
    sem := ⟨0, 0⟩
    removed := false
    a := ⟨.poll, ⟨0, 0⟩, 0, 0⟩
    b := ⟨.poll, ⟨0, 0⟩, 0, 0⟩
    par := ⟨.kill0, ⟨0, 0⟩, 0, 0, []⟩ }

/-! ## Conditions on a schedule of calls -/

/-- Whether a child at this program counter is inside a turn: `GETVAL` done, `SETVAL` or the
exit from the `for` loop still to come. -/
def inTurn : ChildAt → Bool
  | .iter => true
  | _ => false

/-- Whether a child at this program counter is between its `lseek(SEEK_END)` and the end of
its `for` loop. -/
def positioned : ChildAt → Bool
  | .getval => true
  | .iter => true
  | _ => false

/-- Whether a child at this program counter has seen `curRow > NUM_ROW_ALL`. -/
def finished : ChildAt → Bool
  | .unlockExit => true
  | .kill => true
  | .returned => true
  | .exited => true
  | _ => false

/-- Number of children that have seen `curRow > NUM_ROW_ALL`. -/
def finishedCount (w : World) : Nat :=
  (if finished w.a.pc then 1 else 0) + (if finished w.b.pc then 1 else 0)

/-- Producer turns do not overlap at this call: it is not a `GETVAL` by one child while the
other child is inside a turn. -/
def turnsApart (w : World) : Actor → Bool
  | .child p => !(decide ((w.child p).pc = .getval) && inTurn (w.child p.other).pc)
  | .parent => true

/-- The row counter is read from an existing semaphore set at this call: it is not a
`GETVAL` after `IPC_RMID`. -/
def cursorLive (w : World) : Actor → Bool
  | .child p => !(decide ((w.child p).pc = .getval) && w.removed)
  | .parent => true

/-- The parent does not move the file offset under a producer at this call: it is not an
`lseek` or a `readRowFromShm` of the parent while a child is between its `lseek(SEEK_END)`
and the end of its `for` loop. -/
def offsetKept (N : Nat) (w : World) : Actor → Bool
  | .child _ => true
  | .parent =>
    !((decide (w.par.pc = .iter) ||
        (decide (w.par.pc = .loop) && decide (w.par.i < N) &&
          decide (w.par.latches.startRead ≠ 0))) &&
      (positioned w.a.pc || positioned w.b.pc))

/-- No producer moves the file offset under the parent at this call: it is not an
`lseek(SEEK_END)` of a child while the parent is inside its inner `for` loop. -/
def chunkKept (w : World) : Actor → Bool
  | .child p => !(decide ((w.child p).pc = .seek) && decide (w.par.pc = .iter))
  | .parent => true

/-- Every call of the schedule, run from `w`, satisfies the condition `c`. -/
def along (c : World → Actor → Bool) (N C : Nat) : World → List Actor → Bool
  | _, [] => true
  | w, x :: xs =>
    c w x &&
      match call N C w x with
      | none => true
      | some t => along c N C t xs

/-- The producer whose turn this call completes: by `SETVAL`, or by taking the exit path. -/
def turnEnd (N C : Nat) (w : World) : Actor → List Producer
  | .child p =>
    if (w.child p).pc = .iter ∧
        (¬ (w.child p).i < C ∨ (w.child p).curRow + 1 > (N : Int)) then [p] else []
  | .parent => []

/-- The sequence of producer turns that a schedule completes, in order. -/
def turnLog (N C : Nat) : World → List Actor → List Producer
  | _, [] => []
  | w, x :: xs =>
    match call N C w x with
    | none => []
    | some t => turnEnd N C w x ++ turnLog N C t xs

/-- The rows written so far by a child inside a turn. -/
def partRows (w : World) : List Row :=
  (if w.a.pc = .iter then turnRows (getpid .A) w.sem.sem0 w.a.i else []) ++
  (if w.b.pc = .iter then turnRows (getpid .B) w.sem.sem0 w.b.i else [])

/-! ## Invariants of the call-by-call runs -/

/-- Invariant of the turns: the row counter, the children that have seen the limit, the
local variables of a child inside a turn, and how far the parent can have got, in terms of
the sequence `log` of turns completed so far. -/
def TurnInv (N C : Nat) (w : World) (log : List Producer) : Prop :=
  w.sem.sem0 = C * min log.length (N / C) ∧
  finishedCount w = log.length - N / C ∧
  (w.a.pc = .iter → w.a.curRow = (w.sem.sem0 : Int) + (w.a.i : Int) ∧ w.a.i ≤ C ∧
    w.sem.sem0 + w.a.i ≤ N ∧ w.b.pc ≠ .iter) ∧
  (w.b.pc = .iter → w.b.curRow = (w.sem.sem0 : Int) + (w.b.i : Int) ∧ w.b.i ≤ C ∧
    w.sem.sem0 + w.b.i ≤ N) ∧
  (w.par.latches.startRead ≠ 0 → N / C < log.length) ∧
  (w.par.pc = .iter ∨ 0 < w.par.i ∨ w.par.out ≠ [] → w.par.latches.startRead ≠ 0) ∧
  (w.par.pc = .returned ∨ w.par.pc = .exited → N / C ≤ log.length) ∧
  (w.removed = true → N / C ≤ log.length)

/-- The state of a run in which a `SETVAL` has failed with `ERANGE`: the row counter stays
where it is, below the last full chunk, no child ever sees the limit and the parent is never
signalled. -/
def Stuck (N C : Nat) (w : World) : Prop :=
  w.sem.sem0 + C ≤ N ∧ SEMVMX < w.sem.sem0 + C ∧
  finishedCount w = 0 ∧
  w.removed = false ∧
  w.par.latches.startRead = 0 ∧ w.par.i = 0 ∧ w.par.out = [] ∧
  (w.par.pc = .kill0 ∨ w.par.pc = .kill1 ∨ w.par.pc = .loop) ∧
  (w.a.pc = .iter → w.a.curRow = (w.sem.sem0 : Int) + (w.a.i : Int) ∧ w.a.i ≤ C) ∧
  (w.b.pc = .iter → w.b.curRow = (w.sem.sem0 : Int) + (w.b.i : Int) ∧ w.b.i ≤ C)

/-- Invariant of the file and of the file offset as the producers see it: before the parent
is signalled, and, in runs in which the parent does not move the offset under a producer
(`G`), whenever a child is between its `lseek(SEEK_END)` and the end of its `for` loop, the
offset is the end of the file. -/
def FileInv (G : Prop) (N C : Nat) (w : World) (log : List Producer) : Prop :=
  w.shm.file = fileFrom N C 0 log ++ partRows w ∧
  (w.par.latches.startRead = 0 → w.shm.pos = w.shm.file.length) ∧
  (G → positioned w.a.pc = true ∨ positioned w.b.pc = true →
    w.shm.pos = w.shm.file.length)

/-- The first `N` records of the file are rows `1, ..., N`. -/
def FirstRows (N : Nat) (file : List Row) : Prop :=
  ∀ j, j < N → (file[j]?).map Row.rowIndex = some (j + 1)

/-- Invariant of the parent: the file offset inside the inner `for` loop, what has been
printed, and that `startRead` is set once the parent reads, a child has returned, or (for
`N > 0`) the semaphore set has been removed. -/
def ReadInv (N : Nat) (w : World) : Prop :=
  (w.par.pc = .iter → w.shm.pos = w.par.i ∧ w.par.i ≤ N ∧
    positioned w.a.pc = false ∧ positioned w.b.pc = false) ∧
  w.par.out.map (Option.map Row.rowIndex) = (List.range' 1 (min w.par.i N)).map some ∧
  (w.par.pc = .returned ∨ w.par.pc = .exited → N ≤ w.par.i) ∧
  (w.par.pc = .kill0 ∨ w.par.pc = .kill1 → w.par.i = 0) ∧
  (w.par.pc = .iter ∨ 0 < w.par.i → w.par.latches.startRead ≠ 0) ∧
  (w.removed = true → 0 < N → w.par.latches.startRead ≠ 0) ∧
  (w.a.pc = .returned ∨ w.a.pc = .exited → w.par.latches.startRead ≠ 0) ∧
  (w.b.pc = .returned ∨ w.b.pc = .exited → w.par.latches.startRead ≠ 0)

/-- The state of a run after `IPC_RMID`, in which the parent does not move the file offset
under a producer: the first `N` records of the file are rows `1, ..., N`, and while a child
is between its `lseek(SEEK_END)` and the end of its `for` loop the offset is the end of the
file, so that whatever the children still write is appended. -/
def Removed (N : Nat) (w : World) : Prop :=
  w.removed = true ∧ FirstRows N w.shm.file ∧
  (positioned w.a.pc = true ∨ positioned w.b.pc = true → w.shm.pos = w.shm.file.length)

/-- Invariant of the runs in which producer turns do not overlap and neither side moves the
file offset under the other: the invariants of the turns and of the file as long as the
semaphore set exists, or a failed `SETVAL`, or the state after `IPC_RMID`; and the invariant
of the parent throughout. -/
def Readable (N C : Nat) (w : World) : Prop :=
  ((∃ log, TurnInv N C w log ∧ FileInv True N C w log ∧ w.removed = false) ∨
    Stuck N C w ∨ Removed N w) ∧
  ReadInv N w

/-! ## Lemmas on the file and the two `for` loops -/

theorem writeAt_end (file : List Row) (r : Row) : writeAt file file.length r = file ++ [r] := by
  simp [writeAt]

theorem turnRows_zero (pid c : Nat) : turnRows pid c 0 = [] := by
  simp [turnRows]

theorem turnRows_succ (pid c n : Nat) :
    turnRows pid c (n + 1) = ⟨c + 1, pid⟩ :: turnRows pid (c + 1) n := by
  simp [turnRows, List.range'_succ]

theorem turnRows_index (pid c n : Nat) :
    (turnRows pid c n).map Row.rowIndex = List.range' (c + 1) n := by
  simp [turnRows, Function.comp_def]

theorem childFor_spec (N pid : Nat) :
    ∀ (k : Nat) (m : Shm) (cur : Nat), m.pos = m.file.length → cur ≤ N →
      childFor N pid k m cur =
        (⟨m.file ++ turnRows pid cur (min k (N - cur)), m.file.length + min k (N - cur)⟩,
          (if N - cur < k then N + 1 else cur + k), decide (N - cur < k)) := by
  intro k
  induction k with
  | zero =>
    intro m cur hpos _
    obtain ⟨file, pos⟩ := m
    simp only [] at hpos
    simp [childFor, turnRows_zero, hpos]
  | succ k ih =>
    intro m cur hpos hcur
    obtain ⟨file, pos⟩ := m
    simp only [] at hpos
    subst hpos
    by_cases hN : cur + 1 > N
    · have h0 : N - cur = 0 := by omega
      simp [childFor, hN, h0, turnRows_zero]
      omega
    · have hmin : min (k + 1) (N - cur) = min k (N - (cur + 1)) + 1 := by
        simp only [Nat.min_def]; split <;> split <;> omega
      rw [childFor, if_neg hN, ih _ _ (by simp [writeRowToShm, writeAt_end]) (by omega)]
      simp only [writeRowToShm, writeAt_end, hmin, turnRows_succ, List.length_append,
        List.length_singleton, List.append_assoc, List.singleton_append]
      refine Prod.ext ?_ (Prod.ext ?_ ?_)
      · simp; omega
      · simp only []; split <;> split <;> omega
      · simp only [decide_eq_decide]; omega

theorem readRowFromShm_file (m : Shm) : (readRowFromShm m).1.file = m.file := by
  unfold readRowFromShm
  split <;> rfl

theorem parentFor_shape (N : Nat) :
    ∀ (k : Nat) (m : Shm) (i : Nat) (acc : List (Option Row)), i ≤ N →
      (parentFor N k m i acc).2.1 = (if N - i < k then N + 1 else i + k) ∧
      (parentFor N k m i acc).2.2.length = acc.length + min k (N - i) := by
  intro k
  induction k with
  | zero => intro m i acc _; simp [parentFor]
  | succ k ih =>
    intro m i acc hi
    by_cases hN : i + 1 > N
    · have h0 : N - i = 0 := by omega
      simp [parentFor, hN, h0]
      omega
    · rw [parentFor, if_neg hN]
      obtain ⟨h1, h2⟩ := ih (readRowFromShm m).1 (i + 1) (acc ++ [(readRowFromShm m).2]) (by omega)
      rw [h1, h2]
      constructor
      · split <;> split <;> omega
      · simp only [List.length_append, List.length_singleton, Nat.min_def]
        split <;> split <;> omega

theorem fileFrom_append (N C : Nat) :
    ∀ (log : List Producer) (k : Nat) (p : Producer),
      fileFrom N C k (log ++ [p]) = fileFrom N C k log ++
        turnRows (getpid p) (C * min (k + log.length) (N / C))
          (min C (N - C * min (k + log.length) (N / C))) := by
  intro log
  induction log with
  | nil => intro k p; simp [fileFrom]
  | cons q log ih =>
    intro k p
    have hk : k + 1 + log.length = k + (log.length + 1) := by omega
    rw [List.cons_append, fileFrom, fileFrom, ih, List.append_assoc, List.length_cons, hk]

/-- Row numbers of the file after `L` turns. -/
theorem fileFrom_index (N C : Nat) (hC : 1 ≤ C) :
    ∀ (log : List Producer),
      (fileFrom N C 0 log).map Row.rowIndex =
        List.range' 1 (C * min log.length (N / C)) ++
          (List.replicate (log.length - N / C) (List.range' (C * (N / C) + 1) (N % C))).flatten := by
  intro log
  induction log using List.reverseRecOn with
  | nil => simp [fileFrom]
  | append_singleton log p ih =>
    rw [fileFrom_append, List.map_append, ih, turnRows_index]
    simp only [Nat.zero_add, List.length_append, List.length_singleton]
    have hq : C * (N / C) + N % C = N := Nat.div_add_mod N C
    have hm : N % C < C := Nat.mod_lt N (by omega)
    by_cases hL : log.length < N / C
    · have h1 : min log.length (N / C) = log.length := by omega
      have h2 : min (log.length + 1) (N / C) = log.length + 1 := by omega
      have h3 : log.length - N / C = 0 := by omega
      have h4 : log.length + 1 - N / C = 0 := by omega
      have h5 : C * (log.length + 1) ≤ C * (N / C) := Nat.mul_le_mul_left C (by omega)
      have h6 : min C (N - C * log.length) = C := by
        rw [Nat.mul_succ] at h5; omega
      rw [h1, h2, h3, h4, h6]
      simp only [List.replicate_zero, List.flatten_nil, List.append_nil, Nat.mul_succ]
      rw [Nat.add_comm (C * log.length) 1, List.range'_append_1, Nat.add_comm C]
    · have h1 : min log.length (N / C) = N / C := by omega
      have h2 : min (log.length + 1) (N / C) = N / C := by omega
      have h4 : log.length + 1 - N / C = (log.length - N / C) + 1 := by omega
      have h6 : min C (N - C * (N / C)) = N % C := by omega
      rw [h1, h2, h4, h6, List.replicate_succ', List.flatten_append]
      simp [List.append_assoc]

/-- With `C ∣ N`, turns from number `N / C` on write nothing. -/
theorem fileFrom_done (N C : Nat) (hdiv : C * (N / C) = N) :
    ∀ (log : List Producer) (k : Nat), N / C ≤ k → fileFrom N C k log = [] := by
  intro log
  induction log with
  | nil => intro k _; rfl
  | cons p log ih =>
    intro k hk
    have hmin : min k (N / C) = N / C := by omega
    rw [fileFrom, ih (k + 1) (by omega), hmin, hdiv, Nat.sub_self, Nat.min_zero, turnRows_zero]
    rfl

/-! ## The token semaphore -/

theorem tokInv_init : TokInv init := by
  simp [TokInv, init, inRegion]

theorem step_tokInv (N C : Nat) (s t : Sys) (x : Actor) (hinv : TokInv s)
    (h : step N C s x = some t) : TokInv t := by
  obtain ⟨shm, ⟨s0, s1⟩, ⟨apc, al⟩, ⟨bpc, bl⟩, ⟨ppc, pl, i, out⟩⟩ := s
  cases x with
  | parent =>
    cases ppc <;> simp [step, stepParent] at h
    all_goals first
      | (subst h; simpa [TokInv] using hinv)
      | (split at h <;> first
          | (split at h <;> simp at h <;> subst h <;> simpa [TokInv] using hinv)
          | (simp at h; subst h; simpa [TokInv] using hinv))
  | child p =>
    cases p
    · cases apc <;>
        simp [step, stepChild, Sys.child, Sys.setChild, afterSemop, semop, lockOf, unlockOf,
          writeP, writeV, SemSet.getval, SemSet.setval, SemSet.store, SEMVMX] at h
      · by_cases hw : al.startWrite = 0
        · simp [hw] at h; subst h; exact hinv
        · by_cases h1 : 1 ≤ s1
          · simp [hw, h1] at h; subst h
            cases bpc <;> simp_all [TokInv, inRegion]
          · simp [hw, h1] at h
      · rcases hcf : childFor N (getpid Producer.A) C (lseekEnd shm) s0 with ⟨m, cur, _ | _⟩ <;>
          simp [hcf] at h <;> subst h <;>
          (first | simpa [TokInv, inRegion] using hinv
                 | (by_cases hcur : cur ≤ 32767 <;> simpa [TokInv, inRegion, hcur] using hinv))
      · subst h; cases bpc <;> simp_all [TokInv, inRegion]
      · subst h; cases bpc <;> simp_all [TokInv, inRegion]
      · subst h; simpa [TokInv, inRegion] using hinv
    · cases bpc <;>
        simp [step, stepChild, Sys.child, Sys.setChild, afterSemop, semop, lockOf, unlockOf,
          writeP, writeV, SemSet.getval, SemSet.setval, SemSet.store, SEMVMX] at h
      · by_cases hw : bl.startWrite = 0
        · simp [hw] at h; subst h; exact hinv
        · simp [hw] at h; subst h
          cases apc <;> simp_all [TokInv, inRegion]
      · rcases hcf : childFor N (getpid Producer.B) C (lseekEnd shm) s0 with ⟨m, cur, _ | _⟩ <;>
          simp [hcf] at h <;> subst h <;>
          (first | simpa [TokInv, inRegion] using hinv
                 | (by_cases hcur : cur ≤ 32767 <;> simpa [TokInv, inRegion, hcur] using hinv))
      · by_cases h1 : 1 ≤ s1
        · simp [h1] at h; subst h
          cases apc <;> simp_all [TokInv, inRegion]
        · simp [h1] at h
      · by_cases h1 : 1 ≤ s1
        · simp [h1] at h; subst h
          cases apc <;> simp_all [TokInv, inRegion]
        · simp [h1] at h
      · subst h; simpa [TokInv, inRegion] using hinv

theorem exec_tokInv (N C : Nat) :
    ∀ (sched : List Actor) (s t : Sys), TokInv s → exec N C s sched = some t → TokInv t := by
  intro sched
  induction sched with
  | nil => intro s t hs h; simp [exec] at h; subst h; exact hs
  | cons x xs ih =>
    intro s t hs h
    simp only [exec] at h
    cases hx : step N C s x with
    | none => simp [hx] at h
    | some u =>
      rw [hx] at h
      exact ih u t (step_tokInv N C s u x hs hx) h

/-! ## The file, the row counter and the finished children -/

theorem turn_arith (N C L : Nat) (hC : 1 ≤ C) :
    C * min L (N / C) ≤ N ∧
    (N - C * min L (N / C) < C ↔ N / C ≤ L) ∧
    (L < N / C → C * min (L + 1) (N / C) = C * min L (N / C) + C) ∧
    (N / C ≤ L → C * min (L + 1) (N / C) = C * min L (N / C)) := by
  have hq : C * (N / C) + N % C = N := Nat.div_add_mod N C
  have hm : N % C < C := Nat.mod_lt N (by omega)
  by_cases hL : L < N / C
  · have h1 : min L (N / C) = L := by omega
    have h2 : min (L + 1) (N / C) = L + 1 := by omega
    have h5 : C * (L + 1) ≤ C * (N / C) := Nat.mul_le_mul_left C (by omega)
    rw [h1, h2]
    rw [Nat.mul_succ] at h5 ⊢
    refine ⟨by omega, ⟨fun h => by omega, fun h => by omega⟩, fun _ => rfl, fun h => by omega⟩
  · have h1 : min L (N / C) = N / C := by omega
    have h2 : min (L + 1) (N / C) = N / C := by omega
    rw [h1, h2]
    refine ⟨by omega, ⟨fun _ => by omega, fun _ => by omega⟩, fun h => by omega, fun _ => rfl⟩

theorem reach_tokInv (N C : Nat) (sched : List Actor) (s : Sys)
    (h : exec N C init sched = some s) : TokInv s :=
  exec_tokInv N C sched init s tokInv_init h


/-! ## Single steps of a child -/

@[simp] theorem child_setChild (s : Sys) (p : Producer) (c : Child) :
    (s.setChild p c).child p = c := by
  cases p <;> rfl

@[simp] theorem setChild_shm (s : Sys) (p : Producer) (c : Child) :
    (s.setChild p c).shm = s.shm := by
  cases p <;> rfl

@[simp] theorem setChild_sem (s : Sys) (p : Producer) (c : Child) :
    (s.setChild p c).sem = s.sem := by
  cases p <;> rfl

@[simp] theorem setChild_par (s : Sys) (p : Producer) (c : Child) :
    (s.setChild p c).par = s.par := by
  cases p <;> rfl

theorem stepChild_lock (N C : Nat) (p : Producer) (s : Sys) (hpc : (s.child p).pc = .poll)
    (hw : (s.child p).latches.startWrite ≠ 0) (htok : p = .A → 1 ≤ s.sem.sem1) :
    stepChild N C p s = some ({ s with sem := ⟨s.sem.sem0,
      if p = Producer.A then s.sem.sem1 - 1 else s.sem.sem1 + 1⟩ }.setChild p { s.child p with pc := .locked }) := by
  cases p
  · have h1 := htok rfl
    simp only [Sys.child] at hpc hw
    simp [stepChild, hpc, hw, afterSemop, semop, lockOf, writeP, SemSet.getval, SemSet.setval, SemSet.store, SEMVMX,
      h1, Sys.child]
  · simp only [Sys.child] at hpc hw
    simp [stepChild, hpc, hw, afterSemop, semop, lockOf, writeV, SemSet.getval, SemSet.setval, SemSet.store, SEMVMX,
      Sys.child]

theorem stepChild_last_turn (N C : Nat) (p : Producer) (s : Sys)
    (hpc : (s.child p).pc = .locked) (hc : s.sem.sem0 ≤ N) (hlast : N - s.sem.sem0 < C) :
    stepChild N C p s = some ({ s with shm := ⟨s.shm.file ++
        turnRows (getpid p) s.sem.sem0 (N - s.sem.sem0), s.shm.file.length + (N - s.sem.sem0)⟩
      }.setChild p { s.child p with pc := .unlockExit }) := by
  have hmin : min C (N - s.sem.sem0) = N - s.sem.sem0 := by omega
  unfold stepChild
  simp only [hpc]
  rw [childFor_spec N (getpid p) C (lseekEnd s.shm) s.sem.sem0 rfl hc]
  simp [hlast, hmin, lseekEnd]

theorem stepChild_full_turn (N C : Nat) (p : Producer) (s : Sys)
    (hpc : (s.child p).pc = .locked) (hc : s.sem.sem0 + C ≤ N) (hmax : N ≤ SEMVMX) :
    stepChild N C p s = some ({ s with
      shm := ⟨s.shm.file ++ turnRows (getpid p) s.sem.sem0 C, s.shm.file.length + C⟩
      sem := ⟨s.sem.sem0 + C, s.sem.sem1⟩ }.setChild p { s.child p with pc := .unlock }) := by
  have hmin : min C (N - s.sem.sem0) = C := by omega
  have hlt : ¬ N - s.sem.sem0 < C := by omega
  unfold stepChild
  simp only [hpc]
  rw [childFor_spec N (getpid p) C (lseekEnd s.shm) s.sem.sem0 rfl (by omega)]
  have hle : s.sem.sem0 + C ≤ 32767 := by unfold SEMVMX at hmax; omega
  simp [hlt, hmin, lseekEnd, SemSet.setval, SemSet.store, SEMVMX, hle]

theorem stepChild_unlock (N C : Nat) (p : Producer) (s : Sys) (next : ChildPc)
    (hpc : ((s.child p).pc = .unlock ∧ next = .poll) ∨
      ((s.child p).pc = .unlockExit ∧ next = .kill))
    (htok : p = .B → 1 ≤ s.sem.sem1) :
    stepChild N C p s = some ({ s with sem := ⟨s.sem.sem0,
      if p = Producer.A then s.sem.sem1 + 1 else s.sem.sem1 - 1⟩ }.setChild p { s.child p with pc := next }) := by
  cases p
  · simp only [Sys.child] at hpc
    rcases hpc with ⟨hpc, hn⟩ | ⟨hpc, hn⟩ <;> subst hn <;>
      simp [stepChild, hpc, afterSemop, semop, unlockOf, writeV, SemSet.getval, SemSet.setval, SemSet.store, SEMVMX,
        Sys.child]
  · have h1 := htok rfl
    simp only [Sys.child] at hpc
    rcases hpc with ⟨hpc, hn⟩ | ⟨hpc, hn⟩ <;> subst hn <;>
      simp [stepChild, hpc, afterSemop, semop, unlockOf, writeP, SemSet.getval, SemSet.setval, SemSet.store, SEMVMX,
        h1, Sys.child]

theorem stepChild_kill (N C : Nat) (p : Producer) (s : Sys) (hpc : (s.child p).pc = .kill) :
    stepChild N C p s = some ({ s with
      par := { s.par with latches := sigHandler SIGUSR1 s.par.latches } }.setChild p
        { s.child p with pc := .returned }) := by
  simp [stepChild, hpc]

theorem stepChild_returned (N C : Nat) (p : Producer) (s : Sys)
    (hpc : (s.child p).pc = .returned) : stepChild N C p s = none := by
  simp [stepChild, hpc]

/-! ## The number of reads of the parent -/

theorem stepChild_par (N C : Nat) (p : Producer) (s t : Sys) (h : stepChild N C p s = some t) :
    t.par.pc = s.par.pc ∧ t.par.i = s.par.i ∧ t.par.out = s.par.out := by
  obtain ⟨shm, ⟨s0, s1⟩, ⟨apc, al⟩, ⟨bpc, bl⟩, ⟨ppc, pl, i, out⟩⟩ := s
  cases p
  · cases apc <;>
      simp [stepChild, Sys.child, Sys.setChild, afterSemop, semop, lockOf, unlockOf,
        writeP, writeV, SemSet.getval, SemSet.setval, SemSet.store, SEMVMX] at h
    · by_cases hw : al.startWrite = 0
      · simp [hw] at h; subst h; simp
      · by_cases h1 : 1 ≤ s1
        · simp [hw, h1] at h; subst h; simp
        · simp [hw, h1] at h
    · rcases hcf : childFor N (getpid Producer.A) C (lseekEnd shm) s0 with ⟨m, cur, _ | _⟩ <;>
        simp [hcf] at h <;> subst h <;> simp
    · subst h; simp
    · subst h; simp
    · subst h; simp
  · cases bpc <;>
      simp [stepChild, Sys.child, Sys.setChild, afterSemop, semop, lockOf, unlockOf,
        writeP, writeV, SemSet.getval, SemSet.setval, SemSet.store, SEMVMX] at h
    · by_cases hw : bl.startWrite = 0
      · simp [hw] at h; subst h; simp
      · simp [hw] at h; subst h; simp
    · rcases hcf : childFor N (getpid Producer.B) C (lseekEnd shm) s0 with ⟨m, cur, _ | _⟩ <;>
        simp [hcf] at h <;> subst h <;> simp
    · by_cases h1 : 1 ≤ s1
      · simp [h1] at h; subst h; simp
      · simp [h1] at h
    · by_cases h1 : 1 ≤ s1
      · simp [h1] at h; subst h; simp
      · simp [h1] at h
    · subst h; simp

theorem parCount_init (N C : Nat) : ParCount N C init := by
  simp [ParCount, init]

theorem step_parCount (N C : Nat) (hC : 1 ≤ C) (s t : Sys) (x : Actor)
    (hinv : ParCount N C s) (h : step N C s x = some t) : ParCount N C t := by
  cases x with
  | child p =>
    obtain ⟨e1, e2, e3⟩ := stepChild_par N C p s t h
    unfold ParCount
    rw [e1, e2, e3]
    exact hinv
  | parent =>
    obtain ⟨shm, sem, a, b, ⟨ppc, pl, i, out⟩⟩ := s
    obtain ⟨h1, h2, h3, h4, h5⟩ := hinv
    simp only [] at h1 h2 h3 h4 h5
    cases ppc <;> simp [step, stepParent] at h
    · subst h
      exact ⟨by simpa using h1, by simp, by simp, h4, h5⟩
    · subst h
      obtain ⟨_, ho⟩ := h1 (Or.inr rfl)
      subst ho
      exact ⟨by simp, by simp, by simp, by simp, by simp⟩
    · by_cases hi : i < N
      · by_cases hr : pl.startRead = 0
        · simp [hi, hr] at h; subst h; exact ⟨h1, h2, h3, h4, h5⟩
        · simp [hi, hr] at h; subst h
          exact ⟨by simp, by simpa using hi, by simp, h4, h5⟩
      · simp [hi] at h; subst h
        exact ⟨by simp, by simp, by simp; omega, h4, h5⟩
    · subst h
      have hi := h2 rfl
      obtain ⟨⟨k, hk⟩, hsz⟩ := h4 (by omega)
      obtain ⟨hs1, hs2⟩ := parentFor_shape N C shm i [] (by omega)
      simp only [List.length_nil, Nat.zero_add] at hs2
      have hik : i / C = k := by rw [hk]; exact Nat.mul_div_cancel_left k (by omega)
      refine ⟨by simp, by simp, by simp, ?_, ?_⟩
      · intro hle
        simp only [] at hle ⊢
        rw [hs1] at hle ⊢
        by_cases hlt : N - i < C
        · rw [if_pos hlt] at hle; omega
        · rw [if_neg hlt] at hle ⊢
          have hmin : min C (N - i) = C := by omega
          refine ⟨⟨k + 1, by rw [hk, Nat.mul_succ]⟩, ?_⟩
          rw [List.map_append, hsz, List.map_cons, List.map_nil, hs2, hmin,
            Nat.add_div_right i (by omega), hik, List.replicate_succ']
      · intro hgt
        simp only [] at hgt ⊢
        rw [hs1] at hgt ⊢
        by_cases hlt : N - i < C
        · rw [if_pos hlt]
          have hmin : min C (N - i) = N - i := by omega
          have hN : N = C * k + (N - i) := by omega
          have hdiv : N / C = k := by
            rw [hN, Nat.mul_add_div (by omega), Nat.div_eq_of_lt hlt]; rfl
          have hmod : N % C = N - i := by
            rw [hN, Nat.mul_add_mod, Nat.mod_eq_of_lt hlt]
            omega
          refine ⟨rfl, by omega, ?_⟩
          rw [List.map_append, hsz, List.map_cons, List.map_nil, hs2, hmin, hdiv, hmod, hik]
        · rw [if_neg hlt] at hgt; omega

theorem reach_parCount (N C : Nat) (hC : 1 ≤ C) :
    ∀ (sched : List Actor) (s t : Sys), ParCount N C s → exec N C s sched = some t →
      ParCount N C t := by
  intro sched
  induction sched with
  | nil => intro s t hs h; simp [exec] at h; subst h; exact hs
  | cons x xs ih =>
    intro s t hs h
    simp only [exec] at h
    cases hx : step N C s x with
    | none => simp [hx] at h
    | some u =>
      rw [hx] at h
      exact ih u t (step_parCount N C hC s u x hs hx) h

theorem parCount_total (N C : Nat) (hC : 1 ≤ C) (s : Sys) (hinv : ParCount N C s) :
    s.par.out.flatten.length ≤ N ∧
    (s.par.pc = .returned → s.par.out.flatten.length = N ∧
      s.par.out.map List.length = List.replicate (N / C) C ++ (if N % C = 0 then [] else [N % C])) := by
  obtain ⟨_, _, h3, h4, h5⟩ := hinv
  have hq : C * (N / C) + N % C = N := Nat.div_add_mod N C
  by_cases hi : s.par.i ≤ N
  · obtain ⟨⟨k, hk⟩, hsz⟩ := h4 hi
    have hik : s.par.i / C = k := by rw [hk]; exact Nat.mul_div_cancel_left k (by omega)
    have hlen : s.par.out.flatten.length = s.par.i := by
      rw [List.length_flatten, hsz, hik, List.sum_replicate, smul_eq_mul, hk, Nat.mul_comm]
    refine ⟨by omega, ?_⟩
    intro hret
    have hiN : s.par.i = N := by have := h3 hret; omega
    have hmod : N % C = 0 := by rw [← hiN, hk]; exact Nat.mul_mod_right C k
    rw [hiN] at hlen hsz
    exact ⟨hlen, by rw [hsz, if_pos hmod, List.append_nil]⟩
  · obtain ⟨_, hmod, hsz⟩ := h5 (by omega)
    have hlen : s.par.out.flatten.length = N := by
      rw [List.length_flatten, hsz, List.sum_append, List.sum_replicate, smul_eq_mul]
      simp only [List.sum_cons, List.sum_nil, Nat.add_zero]
      rw [Nat.mul_comm]; exact hq
    exact ⟨by omega, fun _ => ⟨hlen, by rw [hsz, if_neg hmod]⟩⟩

/-! ## The parent running alone -/

theorem runAlone_parent_returned (N C : Nat) (n : Nat) (s : Sys) (h : s.par.pc = .returned) :
    runAlone N C .parent n s = s := by
  cases n with
  | zero => rfl
  | succ n => simp [runAlone, step, stepParent, h]

theorem chunk_sizes_step (C r : Nat) (hC : 1 ≤ C) (hr : 0 < r) :
    List.replicate (r / C) C ++ (if r % C = 0 then [] else [r % C]) =
      min C r :: (List.replicate ((r - min C r) / C) C ++
        (if (r - min C r) % C = 0 then [] else [(r - min C r) % C])) := by
  by_cases hlt : r < C
  · have h1 : min C r = r := by omega
    have h2 : r / C = 0 := Nat.div_eq_of_lt hlt
    have h3 : r % C = r := Nat.mod_eq_of_lt hlt
    have h4 : r ≠ 0 := by omega
    simp [h1, h2, h3, h4]
  · have h1 : min C r = C := by omega
    have h2 : r / C = (r - C) / C + 1 := by
      rw [Nat.div_eq r C, if_pos ⟨by omega, by omega⟩]
    have h3 : r % C = (r - C) % C := Nat.mod_eq_sub_mod (by omega)
    rw [h1, h2, h3, List.replicate_succ, List.cons_append]

theorem runAlone_parent_loop (N C : Nat) (hC : 1 ≤ C) :
    ∀ (d : Nat) (s : Sys), s.par.pc = .loop → s.par.latches.startRead ≠ 0 →
      N - s.par.i ≤ d → ∀ n, 2 * d + 1 ≤ n →
        (runAlone N C .parent n s).par.pc = .returned ∧
        (runAlone N C .parent n s).par.out.flatten.length =
          s.par.out.flatten.length + (N - s.par.i) ∧
        (runAlone N C .parent n s).par.out.map List.length =
          s.par.out.map List.length ++ (List.replicate ((N - s.par.i) / C) C ++
            (if (N - s.par.i) % C = 0 then [] else [(N - s.par.i) % C])) := by
  intro d
  induction d with
  | zero =>
    intro s hpc _ hd n hn
    obtain ⟨m, hm⟩ : ∃ m, n = m + 1 := ⟨n - 1, by omega⟩
    subst hm
    have hi : ¬ s.par.i < N := by omega
    have h0 : N - s.par.i = 0 := by omega
    simp [runAlone, step, stepParent, hpc, hi, runAlone_parent_returned, h0]
  | succ d ih =>
    intro s hpc hr hd n hn
    by_cases hi : s.par.i < N
    · obtain ⟨m, hm⟩ : ∃ m, n = m + 2 := ⟨n - 2, by omega⟩
      subst hm
      obtain ⟨hs1, hs2⟩ := parentFor_shape N C (lseekSet s.shm s.par.i) s.par.i [] (by omega)
      obtain ⟨s2, hrun, hpc2, hl2, hi2i, hout2⟩ : ∃ s2 : Sys,
          runAlone N C .parent (m + 2) s = runAlone N C .parent m s2 ∧
          s2.par.pc = .loop ∧ s2.par.latches = s.par.latches ∧
          s2.par.i = (parentFor N C (lseekSet s.shm s.par.i) s.par.i []).2.1 ∧
          s2.par.out = s.par.out ++ [(parentFor N C (lseekSet s.shm s.par.i) s.par.i []).2.2] :=
        ⟨{ s with
            shm := (parentFor N C (lseekSet s.shm s.par.i) s.par.i []).1
            par := { s.par with
              pc := .loop
              i := (parentFor N C (lseekSet s.shm s.par.i) s.par.i []).2.1
              out := s.par.out ++ [(parentFor N C (lseekSet s.shm s.par.i) s.par.i []).2.2] } },
          by simp [runAlone, step, stepParent, hpc, hi, hr], rfl, rfl, rfl, rfl⟩
      rw [hrun]
      have hmin : min C (N - s.par.i) ≤ N - s.par.i := Nat.min_le_right _ _
      have hpos : 0 < min C (N - s.par.i) := by omega
      have hi2 : N - s2.par.i = N - s.par.i - min C (N - s.par.i) := by
        rw [hi2i, hs1]; split <;> omega
      obtain ⟨g1, g2, g3⟩ := ih s2 hpc2 (by rw [hl2]; exact hr) (by rw [hi2]; omega) m (by omega)
      refine ⟨g1, ?_, ?_⟩
      · rw [g2, hout2]
        simp only [List.flatten_append, List.length_append, List.flatten_cons, List.flatten_nil,
          List.append_nil, hs2, hi2, List.length_nil]
        omega
      · rw [g3, hout2]
        simp only [List.map_append, List.map_cons, List.map_nil, hs2, hi2, List.length_nil,
          Nat.zero_add, List.append_assoc, List.singleton_append]
        rw [chunk_sizes_step C (N - s.par.i) hC (by omega)]
    · obtain ⟨m, hm⟩ : ∃ m, n = m + 1 := ⟨n - 1, by omega⟩
      subst hm
      have h0 : N - s.par.i = 0 := by omega
      simp [runAlone, step, stepParent, hpc, hi, runAlone_parent_returned, h0]

/-! ## Runs that exist -/

theorem exec_append (N C : Nat) :
    ∀ (xs ys : List Actor) (s : Sys),
      exec N C s (xs ++ ys) = (exec N C s xs).bind fun t => exec N C t ys := by
  intro xs
  induction xs with
  | nil => intro ys s; rfl
  | cons x xs ih =>
    intro ys s
    simp only [List.cons_append, exec]
    cases step N C s x with
    | none => rfl
    | some t => exact ih ys t

@[simp] theorem turnRows_length (pid c n : Nat) : (turnRows pid c n).length = n := by
  simp [turnRows]

theorem turnRows_append (pid c n m : Nat) :
    turnRows pid c n ++ turnRows pid (c + n) m = turnRows pid c (n + m) := by
  simp only [turnRows, ← List.map_append]
  rw [show c + n + 1 = c + 1 + n by omega, List.range'_append_1, Nat.add_comm m n]

/-- The second child alone takes a full turn. -/
theorem soloB_turn (N C c : Nat) (hc : c + C ≤ N) (hmax : N ≤ SEMVMX) (a : Child)
    (par : Parent) :
    exec N C ⟨⟨turnRows 2 0 c, c⟩, ⟨c, 0⟩, a, ⟨.poll, ⟨1, 0⟩⟩, par⟩
        [.child .B, .child .B, .child .B] =
      some ⟨⟨turnRows 2 0 (c + C), c + C⟩, ⟨c + C, 0⟩, a, ⟨.poll, ⟨1, 0⟩⟩, par⟩ := by
  have e1 : step N C ⟨⟨turnRows 2 0 c, c⟩, ⟨c, 0⟩, a, ⟨.poll, ⟨1, 0⟩⟩, par⟩ (.child .B) =
      some ⟨⟨turnRows 2 0 c, c⟩, ⟨c, 1⟩, a, ⟨.locked, ⟨1, 0⟩⟩, par⟩ := by
    simp [step, stepChild, Sys.child, Sys.setChild, afterSemop, semop, lockOf, writeV,
      SemSet.getval, SemSet.setval, SemSet.store, SEMVMX]
  have e2 : step N C ⟨⟨turnRows 2 0 c, c⟩, ⟨c, 1⟩, a, ⟨.locked, ⟨1, 0⟩⟩, par⟩ (.child .B) =
      some ⟨⟨turnRows 2 0 (c + C), c + C⟩, ⟨c + C, 1⟩, a, ⟨.unlock, ⟨1, 0⟩⟩, par⟩ := by
    simp only [step]
    rw [stepChild_full_turn N C .B
      ⟨⟨turnRows 2 0 c, c⟩, ⟨c, 1⟩, a, ⟨.locked, ⟨1, 0⟩⟩, par⟩ rfl hc hmax]
    simp [Sys.setChild, Sys.child, getpid, ← turnRows_append 2 0 c C]
  have e3 : step N C ⟨⟨turnRows 2 0 (c + C), c + C⟩, ⟨c + C, 1⟩, a, ⟨.unlock, ⟨1, 0⟩⟩, par⟩
      (.child .B) =
      some ⟨⟨turnRows 2 0 (c + C), c + C⟩, ⟨c + C, 0⟩, a, ⟨.poll, ⟨1, 0⟩⟩, par⟩ := by
    simp [step, stepChild, Sys.child, Sys.setChild, afterSemop, semop, unlockOf, writeP,
      SemSet.getval, SemSet.setval, SemSet.store, SEMVMX]
  simp [exec, e1, e2, e3]

/-- After the two `SIGUSR2` signals the second child alone takes `k` full turns. -/
theorem exec_soloB (N C : Nat) (hmax : N ≤ SEMVMX) :
    ∀ k, C * k ≤ N →
      exec N C init ([.parent, .parent] ++
          ((List.replicate k [Producer.B, Producer.B, Producer.B]).flatten).map Actor.child) =
        some ⟨⟨turnRows 2 0 (C * k), C * k⟩, ⟨C * k, 0⟩, ⟨.poll, ⟨1, 0⟩⟩, ⟨.poll, ⟨1, 0⟩⟩,
          ⟨.loop, ⟨0, 0⟩, 0, []⟩⟩ := by
  intro k
  induction k with
  | zero =>
    intro _
    simp [exec, step, stepParent, init, sigHandler, SIGUSR1, SIGUSR2, turnRows]
  | succ k ih =>
    intro hk
    rw [Nat.mul_succ] at hk
    rw [List.replicate_succ', List.flatten_append, List.map_append, ← List.append_assoc,
      exec_append, ih (by omega)]
    simp only [Option.bind, List.flatten_cons, List.flatten_nil, List.append_nil, List.map_cons,
      List.map_nil]
    rw [soloB_turn N C (C * k) hk hmax, Nat.mul_succ]

theorem exec_kills (N C : Nat) :
    exec N C init [.parent, .parent] =
      some ⟨⟨[], 0⟩, ⟨0, 0⟩, ⟨.poll, ⟨1, 0⟩⟩, ⟨.poll, ⟨1, 0⟩⟩, ⟨.loop, ⟨0, 0⟩, 0, []⟩⟩ := by
  simp [exec, step, stepParent, init, sigHandler, SIGUSR1, SIGUSR2]

/-- After `k` full turns of the second child, its next turn when `N - C * k < C`. -/
theorem exec_soloB_last (N C k : Nat) (hmax : N ≤ SEMVMX) (hk : C * k ≤ N)
    (hlast : N - C * k < C) :
    exec N C init (([.parent, .parent] ++
          ((List.replicate k [Producer.B, Producer.B, Producer.B]).flatten).map Actor.child) ++
        [.child .B, .child .B]) =
      some ⟨⟨turnRows 2 0 (C * k) ++ turnRows 2 (C * k) (N - C * k), C * k + (N - C * k)⟩,
        ⟨C * k, 1⟩, ⟨.poll, ⟨1, 0⟩⟩, ⟨.unlockExit, ⟨1, 0⟩⟩, ⟨.loop, ⟨0, 0⟩, 0, []⟩⟩ := by
  have e1 : step N C ⟨⟨turnRows 2 0 (C * k), C * k⟩, ⟨C * k, 0⟩, ⟨.poll, ⟨1, 0⟩⟩,
        ⟨.poll, ⟨1, 0⟩⟩, ⟨.loop, ⟨0, 0⟩, 0, []⟩⟩ (.child .B) =
      some ⟨⟨turnRows 2 0 (C * k), C * k⟩, ⟨C * k, 1⟩, ⟨.poll, ⟨1, 0⟩⟩, ⟨.locked, ⟨1, 0⟩⟩,
        ⟨.loop, ⟨0, 0⟩, 0, []⟩⟩ := by
    simp [step, stepChild, Sys.child, Sys.setChild, afterSemop, semop, lockOf, writeV,
      SemSet.getval, SemSet.setval, SemSet.store, SEMVMX]
  have e2 : step N C ⟨⟨turnRows 2 0 (C * k), C * k⟩, ⟨C * k, 1⟩, ⟨.poll, ⟨1, 0⟩⟩,
        ⟨.locked, ⟨1, 0⟩⟩, ⟨.loop, ⟨0, 0⟩, 0, []⟩⟩ (.child .B) =
      some ⟨⟨turnRows 2 0 (C * k) ++ turnRows 2 (C * k) (N - C * k), C * k + (N - C * k)⟩,
        ⟨C * k, 1⟩, ⟨.poll, ⟨1, 0⟩⟩, ⟨.unlockExit, ⟨1, 0⟩⟩, ⟨.loop, ⟨0, 0⟩, 0, []⟩⟩ := by
    simp only [step]
    rw [stepChild_last_turn N C .B ⟨⟨turnRows 2 0 (C * k), C * k⟩, ⟨C * k, 1⟩,
      ⟨.poll, ⟨1, 0⟩⟩, ⟨.locked, ⟨1, 0⟩⟩, ⟨.loop, ⟨0, 0⟩, 0, []⟩⟩ rfl hk hlast]
    simp [Sys.setChild, Sys.child, getpid]
  rw [exec_append, exec_soloB N C hmax k hk]
  simp only [Option.bind, exec, e1, e2]

theorem parentFor_eof (N : Nat) :
    ∀ (k : Nat) (m : Shm) (i : Nat) (acc : List (Option Row)), m.file.length ≤ m.pos →
      i + k ≤ N → parentFor N k m i acc = (m, i + k, acc ++ List.replicate k none) := by
  intro k
  induction k with
  | zero => intro m i acc _ _; simp [parentFor]
  | succ k ih =>
    intro m i acc hpos hik
    have hN : ¬ i + 1 > N := by omega
    have hread : readRowFromShm m = (m, none) := by
      simp [readRowFromShm, List.getElem?_eq_none hpos]
    rw [parentFor, if_neg hN, hread, ih m (i + 1) _ hpos (by omega)]
    simp only [List.append_assoc, List.singleton_append, ← List.replicate_succ]
    rw [show i + 1 + k = i + (k + 1) by omega]

/-- The race between the parent and the last turn of the second child: after `k` full turns
of the second child, the first child takes the last turn and signals the parent, the parent
does its `lseek`, the second child takes its last turn, and the parent then runs its inner
loop at the end of the file. -/
theorem exec_race (N C k : Nat) (hmax : N ≤ SEMVMX) (hC : 1 ≤ C) (hk : C * k ≤ N)
    (hlast : N - C * k < C) (hCN : C ≤ N) :
    exec N C init ((([.parent, .parent] ++
          ((List.replicate k [Producer.B, Producer.B, Producer.B]).flatten).map Actor.child) ++
        [.child .B, .child .A, .child .A, .child .A, .child .A]) ++
        [.parent, .child .B, .parent]) =
      some ⟨⟨turnRows 2 0 (C * k) ++ turnRows 1 (C * k) (N - C * k) ++
            turnRows 2 (C * k) (N - C * k), C * k + (N - C * k) + (N - C * k)⟩, ⟨C * k, 1⟩,
        ⟨.returned, ⟨1, 0⟩⟩, ⟨.unlockExit, ⟨1, 0⟩⟩,
        ⟨.loop, ⟨0, 1⟩, C, [List.replicate C none]⟩⟩ := by
  generalize hc : C * k = c at hk hlast
  have e1 : step N C ⟨⟨turnRows 2 0 c, c⟩, ⟨c, 0⟩, ⟨.poll, ⟨1, 0⟩⟩, ⟨.poll, ⟨1, 0⟩⟩,
        ⟨.loop, ⟨0, 0⟩, 0, []⟩⟩ (.child .B) =
      some ⟨⟨turnRows 2 0 c, c⟩, ⟨c, 1⟩, ⟨.poll, ⟨1, 0⟩⟩, ⟨.locked, ⟨1, 0⟩⟩,
        ⟨.loop, ⟨0, 0⟩, 0, []⟩⟩ := by
    simp [step, stepChild, Sys.child, Sys.setChild, afterSemop, semop, lockOf, writeV,
      SemSet.getval, SemSet.setval, SemSet.store, SEMVMX]
  have e2 : step N C ⟨⟨turnRows 2 0 c, c⟩, ⟨c, 1⟩, ⟨.poll, ⟨1, 0⟩⟩, ⟨.locked, ⟨1, 0⟩⟩,
        ⟨.loop, ⟨0, 0⟩, 0, []⟩⟩ (.child .A) =
      some ⟨⟨turnRows 2 0 c, c⟩, ⟨c, 0⟩, ⟨.locked, ⟨1, 0⟩⟩, ⟨.locked, ⟨1, 0⟩⟩,
        ⟨.loop, ⟨0, 0⟩, 0, []⟩⟩ := by
    simp [step, stepChild, Sys.child, Sys.setChild, afterSemop, semop, lockOf, writeP,
      SemSet.getval, SemSet.setval, SemSet.store, SEMVMX]
  have e3 : step N C ⟨⟨turnRows 2 0 c, c⟩, ⟨c, 0⟩, ⟨.locked, ⟨1, 0⟩⟩, ⟨.locked, ⟨1, 0⟩⟩,
        ⟨.loop, ⟨0, 0⟩, 0, []⟩⟩ (.child .A) =
      some ⟨⟨turnRows 2 0 c ++ turnRows 1 c (N - c), c + (N - c)⟩, ⟨c, 0⟩,
        ⟨.unlockExit, ⟨1, 0⟩⟩, ⟨.locked, ⟨1, 0⟩⟩, ⟨.loop, ⟨0, 0⟩, 0, []⟩⟩ := by
    simp only [step]
    rw [stepChild_last_turn N C .A ⟨⟨turnRows 2 0 c, c⟩, ⟨c, 0⟩, ⟨.locked, ⟨1, 0⟩⟩,
      ⟨.locked, ⟨1, 0⟩⟩, ⟨.loop, ⟨0, 0⟩, 0, []⟩⟩ rfl hk hlast]
    simp [Sys.setChild, Sys.child, getpid]
  have e4 : step N C ⟨⟨turnRows 2 0 c ++ turnRows 1 c (N - c), c + (N - c)⟩, ⟨c, 0⟩,
        ⟨.unlockExit, ⟨1, 0⟩⟩, ⟨.locked, ⟨1, 0⟩⟩, ⟨.loop, ⟨0, 0⟩, 0, []⟩⟩ (.child .A) =
      some ⟨⟨turnRows 2 0 c ++ turnRows 1 c (N - c), c + (N - c)⟩, ⟨c, 1⟩,
        ⟨.kill, ⟨1, 0⟩⟩, ⟨.locked, ⟨1, 0⟩⟩, ⟨.loop, ⟨0, 0⟩, 0, []⟩⟩ := by
    simp [step, stepChild, Sys.child, Sys.setChild, afterSemop, semop, unlockOf, writeV,
      SemSet.getval, SemSet.setval, SemSet.store, SEMVMX]
  have e5 : step N C ⟨⟨turnRows 2 0 c ++ turnRows 1 c (N - c), c + (N - c)⟩, ⟨c, 1⟩,
        ⟨.kill, ⟨1, 0⟩⟩, ⟨.locked, ⟨1, 0⟩⟩, ⟨.loop, ⟨0, 0⟩, 0, []⟩⟩ (.child .A) =
      some ⟨⟨turnRows 2 0 c ++ turnRows 1 c (N - c), c + (N - c)⟩, ⟨c, 1⟩,
        ⟨.returned, ⟨1, 0⟩⟩, ⟨.locked, ⟨1, 0⟩⟩, ⟨.loop, ⟨0, 1⟩, 0, []⟩⟩ := by
    simp [step, stepChild, Sys.child, Sys.setChild, sigHandler, SIGUSR1]
  have e6 : step N C ⟨⟨turnRows 2 0 c ++ turnRows 1 c (N - c), c + (N - c)⟩, ⟨c, 1⟩,
        ⟨.returned, ⟨1, 0⟩⟩, ⟨.locked, ⟨1, 0⟩⟩, ⟨.loop, ⟨0, 1⟩, 0, []⟩⟩ .parent =
      some ⟨⟨turnRows 2 0 c ++ turnRows 1 c (N - c), 0⟩, ⟨c, 1⟩,
        ⟨.returned, ⟨1, 0⟩⟩, ⟨.locked, ⟨1, 0⟩⟩, ⟨.chunk, ⟨0, 1⟩, 0, []⟩⟩ := by
    have hN : 0 < N := by omega
    simp [step, stepParent, hN, lseekSet]
  have e7 : step N C ⟨⟨turnRows 2 0 c ++ turnRows 1 c (N - c), 0⟩, ⟨c, 1⟩,
        ⟨.returned, ⟨1, 0⟩⟩, ⟨.locked, ⟨1, 0⟩⟩, ⟨.chunk, ⟨0, 1⟩, 0, []⟩⟩ (.child .B) =
      some ⟨⟨turnRows 2 0 c ++ turnRows 1 c (N - c) ++ turnRows 2 c (N - c),
          c + (N - c) + (N - c)⟩, ⟨c, 1⟩, ⟨.returned, ⟨1, 0⟩⟩, ⟨.unlockExit, ⟨1, 0⟩⟩,
        ⟨.chunk, ⟨0, 1⟩, 0, []⟩⟩ := by
    simp only [step]
    rw [stepChild_last_turn N C .B ⟨⟨turnRows 2 0 c ++ turnRows 1 c (N - c), 0⟩,
      ⟨c, 1⟩, ⟨.returned, ⟨1, 0⟩⟩, ⟨.locked, ⟨1, 0⟩⟩, ⟨.chunk, ⟨0, 1⟩, 0, []⟩⟩ rfl hk hlast]
    simp [Sys.setChild, Sys.child, getpid]
  have e8 : step N C ⟨⟨turnRows 2 0 c ++ turnRows 1 c (N - c) ++ turnRows 2 c (N - c),
          c + (N - c) + (N - c)⟩, ⟨c, 1⟩, ⟨.returned, ⟨1, 0⟩⟩, ⟨.unlockExit, ⟨1, 0⟩⟩,
        ⟨.chunk, ⟨0, 1⟩, 0, []⟩⟩ .parent =
      some ⟨⟨turnRows 2 0 c ++ turnRows 1 c (N - c) ++ turnRows 2 c (N - c),
          c + (N - c) + (N - c)⟩, ⟨c, 1⟩, ⟨.returned, ⟨1, 0⟩⟩, ⟨.unlockExit, ⟨1, 0⟩⟩,
        ⟨.loop, ⟨0, 1⟩, C, [List.replicate C none]⟩⟩ := by
    simp only [step, stepParent]
    rw [parentFor_eof N C _ 0 [] (by simp; omega) (by omega)]
    simp
  have h1 := exec_soloB N C hmax k (by omega)
  rw [hc] at h1
  rw [exec_append, exec_append, h1]
  simp only [Option.bind, exec, e1, e2, e3, e4, e5, e6, e7, e8]

/-! ## Lemmas on the runs call by call -/

theorem semopCall_cases (w : World) (b : Sembuf) (hb : b = writeP ∨ b = writeV) :
    semopCall w b = .blocked ∨ semopCall w b = .failed ∨
      ∃ v, semopCall w b = .done ⟨w.sem.sem0, v⟩ := by
  obtain ⟨shm, ⟨s0, s1⟩, rem, a, b0, par⟩ := w
  rcases hb with hb | hb <;> subst hb <;>
    simp only [semopCall, semop, writeP, writeV, SemSet.getval, SemSet.store]
  · by_cases hr : rem = true
    · simp [hr]
    · by_cases h1 : 1 ≤ s1
      · simp [hr, h1]
      · simp [hr, h1]
  · by_cases hr : rem = true
    · simp [hr]
    · simp [hr]

theorem lockOf_cases (p : Producer) : lockOf p = writeP ∨ lockOf p = writeV := by
  cases p <;> simp [lockOf]

theorem unlockOf_cases (p : Producer) : unlockOf p = writeP ∨ unlockOf p = writeV := by
  cases p <;> simp [unlockOf]

/-- What a `semop` step of a child changes: its program counter and, at most, slot 1. -/
theorem afterSemopCall_spec (w t : World) (p : Producer) (next : ChildAt) (b : Sembuf)
    (hb : b = writeP ∨ b = writeV)
    (h : afterSemopCall w p next (semopCall w b) = some t) :
    ∃ v, t = { w with sem := ⟨w.sem.sem0, v⟩ }.setChild p { w.child p with pc := next } := by
  rcases semopCall_cases w b hb with hs | hs | ⟨v, hs⟩
  · rw [hs] at h; simp [afterSemopCall] at h
  · rw [hs] at h; simp only [afterSemopCall, Option.some.injEq] at h
    exact ⟨w.sem.sem1, by rw [← h]⟩
  · rw [hs] at h; simp only [afterSemopCall, Option.some.injEq] at h
    exact ⟨v, by rw [← h]⟩


theorem step_turn_childA_easy (N C : Nat) (w t : World) (log : List Producer)
    (hinv : TurnInv N C w log) (hpc : w.a.pc ≠ .iter) (hpc2 : w.a.pc ≠ .getval)
    (h : childCall N C .A w = some t) :
    TurnInv N C t log := by
  obtain ⟨⟨file, pos⟩, ⟨s0, s1⟩, rem, ⟨apc, al, ac, ai⟩, ⟨bpc, bl, bc, bi⟩,
    ⟨ppc, pl, i, j, out⟩⟩ := w
  obtain ⟨h1, h2, h3, h4, h5, h6, h7, h8⟩ := hinv
  simp only [finishedCount] at h2
  simp only [] at h1 h2 h3 h4 h5 h6 h7 h8 hpc hpc2
  cases apc <;> simp only [childCall, World.child] at h
  · by_cases hw : al.startWrite = 0
    · simp [hw] at h; subst h
      exact ⟨h1, h2, h3, h4, h5, h6, h7, h8⟩
    · simp only [ne_eq, hw, not_false_eq_true, if_true] at h
      obtain ⟨v, ht⟩ := afterSemopCall_spec _ _ _ _ _ (lockOf_cases .A) h
      subst ht
      refine ⟨h1, ?_, by simp [World.setChild, World.child], h4, h5, h6, h7, h8⟩
      simpa [World.setChild, World.child, finishedCount, finished] using h2
  · simp [World.setChild] at h; subst h
    refine ⟨h1, ?_, by simp, h4, h5, h6, h7, h8⟩
    simpa [finishedCount, finished] using h2
  · exact absurd rfl hpc2
  · exact absurd rfl hpc
  · obtain ⟨v, ht⟩ := afterSemopCall_spec _ _ _ _ _ (unlockOf_cases .A) h
    subst ht
    refine ⟨h1, ?_, by simp [World.setChild, World.child], h4, h5, h6, h7, h8⟩
    simpa [World.setChild, World.child, finishedCount, finished] using h2
  · obtain ⟨v, ht⟩ := afterSemopCall_spec _ _ _ _ _ (unlockOf_cases .A) h
    subst ht
    refine ⟨h1, ?_, by simp [World.setChild, World.child], h4, h5, h6, h7, h8⟩
    simpa [World.setChild, World.child, finishedCount, finished] using h2
  · simp [World.setChild] at h; subst h
    refine ⟨h1, ?_, by simp, h4, ?_, ?_, h7, h8⟩
    · simpa [finishedCount, finished] using h2
    · intro _
      simp [finished] at h2
      omega
    · intro _
      simp [sigHandler, SIGUSR1]
  · simp [World.setChild] at h; subst h
    refine ⟨h1, ?_, by simp, h4, h5, h6, h7, ?_⟩
    · simpa [finishedCount, finished] using h2
    · intro _
      simp [finished] at h2
      omega
  · simp at h

theorem step_turn_parent (N C : Nat) (w t : World) (log : List Producer)
    (hinv : TurnInv N C w log) (h : parentCall N C w = some t) :
    TurnInv N C t log := by
  obtain ⟨⟨file, pos⟩, ⟨s0, s1⟩, rem, ⟨apc, al, ac, ai⟩, ⟨bpc, bl, bc, bi⟩,
    ⟨ppc, pl, i, j, out⟩⟩ := w
  obtain ⟨h1, h2, h3, h4, h5, h6, h7, h8⟩ := hinv
  simp only [finishedCount] at h2
  simp only [] at h1 h2 h3 h4 h5 h6 h7 h8
  cases ppc <;> simp only [parentCall] at h
  · simp at h; subst h
    exact ⟨h1, h2, h3, h4, h5, by simpa using h6, by simp, h8⟩
  · simp at h; subst h
    refine ⟨h1, h2, h3, h4, h5, ?_, by simp, h8⟩
    intro hh
    rcases hh with hh | hh | hh
    · simp at hh
    · simp at hh
    · exact h6 (Or.inr (Or.inr hh))
  · by_cases hi : i < N
    · by_cases hr : pl.startRead = 0
      · simp [hi, hr] at h; subst h
        exact ⟨h1, h2, h3, h4, h5, h6, h7, h8⟩
      · simp [hi, hr] at h; subst h
        exact ⟨h1, h2, h3, h4, h5, fun _ => hr, by simp, h8⟩
    · simp [hi] at h; subst h
      refine ⟨h1, h2, h3, h4, h5, by simpa using h6, ?_, h8⟩
      intro _
      by_cases hN : N = 0
      · subst hN; simp
      · have := h5 (h6 (Or.inr (Or.inl (by omega)))); omega
  · have hr := h6 (Or.inl rfl)
    by_cases hj : j < C
    · by_cases hb : N < i + 1
      · simp [hj, hb] at h; subst h
        exact ⟨h1, h2, h3, h4, h5, fun _ => hr, by simp, h8⟩
      · simp [hj, hb] at h; subst h
        exact ⟨h1, h2, h3, h4, h5, fun _ => hr, by simp, h8⟩
    · simp [hj] at h; subst h
      exact ⟨h1, h2, h3, h4, h5, fun _ => hr, by simp, h8⟩
  · simp at h; subst h
    exact ⟨h1, h2, h3, h4, h5, by simpa using h6, fun _ => h7 (Or.inl rfl),
      fun _ => h7 (Or.inl rfl)⟩
  · simp at h

theorem step_turn_childA_getval (N C : Nat) (hC : 1 ≤ C) (w t : World) (log : List Producer)
    (hinv : TurnInv N C w log) (hpc : w.a.pc = .getval)
    (ha : turnsApart w (.child .A) = true) (hl : cursorLive w (.child .A) = true)
    (h : childCall N C .A w = some t) :
    TurnInv N C t log := by
  obtain ⟨⟨file, pos⟩, ⟨s0, s1⟩, rem, ⟨apc, al, ac, ai⟩, ⟨bpc, bl, bc, bi⟩,
    ⟨ppc, pl, i, j, out⟩⟩ := w
  obtain ⟨h1, h2, h3, h4, h5, h6, h7, h8⟩ := hinv
  obtain ⟨ta1, _, _, _⟩ := turn_arith N C log.length hC
  simp only [finishedCount] at h2
  simp only [] at h1 h2 h3 h4 h5 h6 h7 h8 hpc
  subst hpc
  simp [turnsApart, World.child, Producer.other, inTurn] at ha
  simp [cursorLive, World.child] at hl
  subst hl
  simp [childCall, World.child, World.setChild, semctlGetval] at h
  subst h
  refine ⟨h1, ?_, ?_, h4, h5, h6, h7, h8⟩
  · simpa [finishedCount, finished] using h2
  · intro _
    refine ⟨by simp, by simp, by simp; omega, ?_⟩
    intro hb
    first | exact ha hb | (subst hb; simp at ha)

theorem step_turn_childA_iter (N C : Nat) (hC : 1 ≤ C) (w t : World) (log : List Producer)
    (hinv : TurnInv N C w log) (hpc : w.a.pc = .iter)
    (h : childCall N C .A w = some t) :
    TurnInv N C t (log ++ turnEnd N C w (.child .A)) ∨ Stuck N C t := by
  obtain ⟨⟨file, pos⟩, ⟨s0, s1⟩, rem, ⟨apc, al, ac, ai⟩, ⟨bpc, bl, bc, bi⟩,
    ⟨ppc, pl, i, j, out⟩⟩ := w
  obtain ⟨h1, h2, h3, h4, h5, h6, h7, h8⟩ := hinv
  obtain ⟨ta1, ta2, ta3, ta4⟩ := turn_arith N C log.length hC
  simp only [finishedCount] at h2
  simp only [] at h1 h2 h3 h4 h5 h6 h7 h8 hpc
  subst hpc
  obtain ⟨g1, g2, g3, g4⟩ := h3 rfl
  rw [← h1] at ta1 ta2 ta3 ta4
  have e0 : (if finished ChildAt.iter = true then (1 : Nat) else 0) = 0 := rfl
  have e1 : (if finished ChildAt.unlockExit = true then (1 : Nat) else 0) = 1 := rfl
  have e2 : (if finished ChildAt.unlock = true then (1 : Nat) else 0) = 0 := rfl
  rw [e0] at h2
  generalize hfo : (if finished bpc = true then (1 : Nat) else 0) = fo at h2
  by_cases hi : ai < C
  · by_cases hx : (N : Int) < ac + 1
    · -- the exit path
      simp [childCall, World.child, World.setChild, hi, hx] at h
      subst h
      have hq : N / C ≤ log.length := ta2.1 (by omega)
      left
      simp only [turnEnd, World.child, hi, hx, not_true_eq_false, false_or, and_self, if_true,
        gt_iff_lt]
      refine ⟨?_, ?_, by simp, h4, ?_, h6, ?_, ?_⟩
      · simp only [List.length_append, List.length_singleton]
        rw [ta4 hq]
      · simp only [finishedCount, List.length_append, List.length_singleton, e1, hfo]
        omega
      · intro _; simp; omega
      · intro _; simp; omega
      · intro _; simp; omega
    · -- one more row
      simp [childCall, World.child, World.setChild, hi, hx] at h
      subst h
      left
      simp only [turnEnd, World.child, hi, hx, not_true_eq_false, false_or, and_false, if_false,
        gt_iff_lt, List.append_nil]
      refine ⟨h1, ?_, ?_, h4, h5, h6, h7, h8⟩
      · simp only [finishedCount, e0, hfo]
        exact h2
      · intro _
        refine ⟨by simp; omega, by simp; omega, by simp; omega, g4⟩
  · -- `SETVAL`
    have hiC : ai = C := by omega
    have hL : log.length < N / C := by
      by_contra hcon
      have := ta2.2 (by omega)
      omega
    have hrem : rem = false := by
      cases rem
      · rfl
      · have := h8 rfl; omega
    subst hrem
    have hac : ¬ ac < 0 := by omega
    have hnat : ac.toNat = s0 + ai := by omega
    simp only [childCall, World.child, hi, if_false, semctlSetval,
      Bool.false_eq_true, hac, hnat, SemSet.setval, Option.some.injEq] at h
    by_cases hmax : s0 + ai ≤ SEMVMX
    · simp only [hmax, if_true, SemSet.store, World.setChild] at h
      subst h
      left
      simp only [turnEnd, World.child, hi, not_false_eq_true, true_or, and_self,
        if_true]
      refine ⟨?_, ?_, by simp, ?_, ?_, ?_, ?_, ?_⟩
      · simp only [List.length_append, List.length_singleton]
        rw [ta3 hL, hiC]
      · simp only [finishedCount, List.length_append, List.length_singleton, e2, hfo]
        omega
      · intro hb; exact absurd hb g4
      · intro hr; have := h5 hr; omega
      · exact h6
      · intro hp; have := h7 hp; omega
      · intro hr; simp at hr
    · simp only [hmax, if_false, World.setChild] at h
      subst h
      right
      have hsr : pl.startRead = 0 := by
        by_contra hcon
        have := h5 hcon; omega
      refine ⟨by simp; omega, by simp; omega, ?_, rfl, hsr, ?_, ?_, ?_, by simp, ?_⟩
      · simp only [finishedCount, e2, hfo]
        omega
      · by_contra hcon
        exact h6 (Or.inr (Or.inl (by simp at hcon; omega))) hsr
      · by_contra hcon
        exact h6 (Or.inr (Or.inr hcon)) hsr
      · cases ppc
        · simp
        · simp
        · simp
        · exact absurd hsr (h6 (Or.inl rfl))
        · have := h7 (Or.inl rfl); omega
        · have := h7 (Or.inr rfl); omega
      · intro hb; exact absurd hb g4

theorem step_turn_childB_easy (N C : Nat) (w t : World) (log : List Producer)
    (hinv : TurnInv N C w log) (hpc : w.b.pc ≠ .iter) (hpc2 : w.b.pc ≠ .getval)
    (h : childCall N C .B w = some t) :
    TurnInv N C t log := by
  obtain ⟨⟨file, pos⟩, ⟨s0, s1⟩, rem, ⟨apc, al, ac, ai⟩, ⟨bpc, bl, bc, bi⟩,
    ⟨ppc, pl, i, j, out⟩⟩ := w
  obtain ⟨h1, h2, h3, h4, h5, h6, h7, h8⟩ := hinv
  simp only [finishedCount] at h2
  simp only [] at h1 h2 h3 h4 h5 h6 h7 h8 hpc hpc2
  have h3' : ∀ pc : ChildAt, pc ≠ .iter →
      (apc = .iter → ac = (s0 : Int) + (ai : Int) ∧ ai ≤ C ∧ s0 + ai ≤ N ∧ pc ≠ .iter) :=
    fun pc hne ha => ⟨(h3 ha).1, (h3 ha).2.1, (h3 ha).2.2.1, hne⟩
  cases bpc <;> simp only [childCall, World.child] at h
  · by_cases hw : bl.startWrite = 0
    · simp [hw] at h; subst h
      exact ⟨h1, h2, h3, h4, h5, h6, h7, h8⟩
    · simp only [ne_eq, hw, not_false_eq_true, if_true] at h
      obtain ⟨v, ht⟩ := afterSemopCall_spec _ _ _ _ _ (lockOf_cases .B) h
      subst ht
      refine ⟨h1, ?_, h3' _ (by simp [World.setChild, World.child]), by simp [World.setChild, World.child], h5, h6, h7, h8⟩
      simpa [World.setChild, World.child, finishedCount, finished] using h2
  · simp [World.setChild] at h; subst h
    refine ⟨h1, ?_, h3' _ (by simp [World.setChild, World.child]), by simp, h5, h6, h7, h8⟩
    simpa [finishedCount, finished] using h2
  · exact absurd rfl hpc2
  · exact absurd rfl hpc
  · obtain ⟨v, ht⟩ := afterSemopCall_spec _ _ _ _ _ (unlockOf_cases .B) h
    subst ht
    refine ⟨h1, ?_, h3' _ (by simp [World.setChild, World.child]), by simp [World.setChild, World.child], h5, h6, h7, h8⟩
    simpa [World.setChild, World.child, finishedCount, finished] using h2
  · obtain ⟨v, ht⟩ := afterSemopCall_spec _ _ _ _ _ (unlockOf_cases .B) h
    subst ht
    refine ⟨h1, ?_, h3' _ (by simp [World.setChild, World.child]), by simp [World.setChild, World.child], h5, h6, h7, h8⟩
    simpa [World.setChild, World.child, finishedCount, finished] using h2
  · simp [World.setChild] at h; subst h
    refine ⟨h1, ?_, h3' _ (by simp [World.setChild, World.child]), by simp, ?_, ?_, h7, h8⟩
    · simpa [finishedCount, finished] using h2
    · intro _
      simp [finished] at h2
      omega
    · intro _
      simp [sigHandler, SIGUSR1]
  · simp [World.setChild] at h; subst h
    refine ⟨h1, ?_, h3' _ (by simp [World.setChild, World.child]), by simp, h5, h6, h7, ?_⟩
    · simpa [finishedCount, finished] using h2
    · intro _
      simp [finished] at h2
      omega
  · simp at h

theorem step_turn_childB_getval (N C : Nat) (hC : 1 ≤ C) (w t : World) (log : List Producer)
    (hinv : TurnInv N C w log) (hpc : w.b.pc = .getval)
    (ha : turnsApart w (.child .B) = true) (hl : cursorLive w (.child .B) = true)
    (h : childCall N C .B w = some t) :
    TurnInv N C t log := by
  obtain ⟨⟨file, pos⟩, ⟨s0, s1⟩, rem, ⟨apc, al, ac, ai⟩, ⟨bpc, bl, bc, bi⟩,
    ⟨ppc, pl, i, j, out⟩⟩ := w
  obtain ⟨h1, h2, h3, h4, h5, h6, h7, h8⟩ := hinv
  obtain ⟨ta1, _, _, _⟩ := turn_arith N C log.length hC
  simp only [finishedCount] at h2
  simp only [] at h1 h2 h3 h4 h5 h6 h7 h8 hpc
  subst hpc
  simp [turnsApart, World.child, Producer.other, inTurn] at ha
  simp [cursorLive, World.child] at hl
  subst hl
  simp [childCall, World.child, World.setChild, semctlGetval] at h
  subst h
  have hne : apc ≠ .iter := by
    intro hb
    first | exact ha hb | (subst hb; simp at ha)
  refine ⟨h1, ?_, fun hb => absurd hb hne, ?_, h5, h6, h7, h8⟩
  · simpa [finishedCount, finished] using h2
  · intro _
    exact ⟨by simp, by simp, by simp; omega⟩

theorem step_turn_childB_iter (N C : Nat) (hC : 1 ≤ C) (w t : World) (log : List Producer)
    (hinv : TurnInv N C w log) (hpc : w.b.pc = .iter)
    (h : childCall N C .B w = some t) :
    TurnInv N C t (log ++ turnEnd N C w (.child .B)) ∨ Stuck N C t := by
  obtain ⟨⟨file, pos⟩, ⟨s0, s1⟩, rem, ⟨apc, al, ac, ai⟩, ⟨bpc, bl, bc, bi⟩,
    ⟨ppc, pl, i, j, out⟩⟩ := w
  obtain ⟨h1, h2, h3, h4, h5, h6, h7, h8⟩ := hinv
  obtain ⟨ta1, ta2, ta3, ta4⟩ := turn_arith N C log.length hC
  simp only [finishedCount] at h2
  simp only [] at h1 h2 h3 h4 h5 h6 h7 h8 hpc
  subst hpc
  obtain ⟨g1, g2, g3⟩ := h4 rfl
  have g4 : apc ≠ .iter := fun ha => (h3 ha).2.2.2 rfl
  have h3n : ∀ (s : Nat) (pc : ChildAt),
      (apc = .iter → ac = (s : Int) + (ai : Int) ∧ ai ≤ C ∧ s + ai ≤ N ∧ pc ≠ .iter) :=
    fun _ _ ha => absurd ha g4
  rw [← h1] at ta1 ta2 ta3 ta4
  have e0 : (if finished ChildAt.iter = true then (1 : Nat) else 0) = 0 := rfl
  have e1 : (if finished ChildAt.unlockExit = true then (1 : Nat) else 0) = 1 := rfl
  have e2 : (if finished ChildAt.unlock = true then (1 : Nat) else 0) = 0 := rfl
  rw [e0] at h2
  generalize hfo : (if finished apc = true then (1 : Nat) else 0) = fo at h2
  by_cases hi : bi < C
  · by_cases hx : (N : Int) < bc + 1
    · -- the exit path
      simp [childCall, World.child, World.setChild, hi, hx] at h
      subst h
      have hq : N / C ≤ log.length := ta2.1 (by omega)
      left
      simp only [turnEnd, World.child, hi, hx, not_true_eq_false, false_or, and_self, if_true,
        gt_iff_lt]
      refine ⟨?_, ?_, h3n _ _, by simp, ?_, h6, ?_, ?_⟩
      · simp only [List.length_append, List.length_singleton]
        rw [ta4 hq]
      · simp only [finishedCount, List.length_append, List.length_singleton, e1, hfo]
        omega
      · intro _; simp; omega
      · intro _; simp; omega
      · intro _; simp; omega
    · -- one more row
      simp [childCall, World.child, World.setChild, hi, hx] at h
      subst h
      left
      simp only [turnEnd, World.child, hi, hx, not_true_eq_false, false_or, and_false, if_false,
        gt_iff_lt, List.append_nil]
      refine ⟨h1, ?_, h3n _ _, ?_, h5, h6, h7, h8⟩
      · simp only [finishedCount, e0, hfo]
        exact h2
      · intro _
        exact ⟨by simp; omega, by simp; omega, by simp; omega⟩
  · -- `SETVAL`
    have hiC : bi = C := by omega
    have hL : log.length < N / C := by
      by_contra hcon
      have := ta2.2 (by omega)
      omega
    have hrem : rem = false := by
      cases rem
      · rfl
      · have := h8 rfl; omega
    subst hrem
    have hac : ¬ bc < 0 := by omega
    have hnat : bc.toNat = s0 + bi := by omega
    simp only [childCall, World.child, hi, if_false, semctlSetval,
      Bool.false_eq_true, hac, hnat, SemSet.setval, Option.some.injEq] at h
    by_cases hmax : s0 + bi ≤ SEMVMX
    · simp only [hmax, if_true, SemSet.store, World.setChild] at h
      subst h
      left
      simp only [turnEnd, World.child, hi, not_false_eq_true, true_or, and_self,
        if_true]
      refine ⟨?_, ?_, h3n _ _, by simp, ?_, ?_, ?_, ?_⟩
      · simp only [List.length_append, List.length_singleton]
        rw [ta3 hL, hiC]
      · simp only [finishedCount, List.length_append, List.length_singleton, e2, hfo]
        omega
      · intro hr; have := h5 hr; omega
      · exact h6
      · intro hp; have := h7 hp; omega
      · intro hr; simp at hr
    · simp only [hmax, if_false, World.setChild] at h
      subst h
      right
      have hsr : pl.startRead = 0 := by
        by_contra hcon
        have := h5 hcon; omega
      refine ⟨by simp; omega, by simp; omega, ?_, rfl, hsr, ?_, ?_, ?_, ?_, by simp⟩
      · simp only [finishedCount, e2, hfo]
        omega
      · by_contra hcon
        exact h6 (Or.inr (Or.inl (by simp at hcon; omega))) hsr
      · by_contra hcon
        exact h6 (Or.inr (Or.inr hcon)) hsr
      · cases ppc
        · simp
        · simp
        · simp
        · exact absurd hsr (h6 (Or.inl rfl))
        · have := h7 (Or.inl rfl); omega
        · have := h7 (Or.inr rfl); omega
      · intro hb; exact absurd hb g4

/-- One call keeps the invariant of the turns, or is a `SETVAL` that fails with `ERANGE`. -/
theorem step_turn (N C : Nat) (hC : 1 ≤ C) (w t : World) (x : Actor) (log : List Producer)
    (hinv : TurnInv N C w log) (ha : turnsApart w x = true) (hl : cursorLive w x = true)
    (h : call N C w x = some t) :
    TurnInv N C t (log ++ turnEnd N C w x) ∨ Stuck N C t := by
  cases x with
  | parent =>
    left
    simp only [turnEnd, List.append_nil]
    exact step_turn_parent N C w t log hinv h
  | child p =>
    cases p
    · by_cases h1 : w.a.pc = .iter
      · exact step_turn_childA_iter N C hC w t log hinv h1 h
      · left
        have he : turnEnd N C w (.child .A) = [] := by simp [turnEnd, World.child, h1]
        rw [he, List.append_nil]
        by_cases h2 : w.a.pc = .getval
        · exact step_turn_childA_getval N C hC w t log hinv h2 ha hl h
        · exact step_turn_childA_easy N C w t log hinv h1 h2 h
    · by_cases h1 : w.b.pc = .iter
      · exact step_turn_childB_iter N C hC w t log hinv h1 h
      · left
        have he : turnEnd N C w (.child .B) = [] := by simp [turnEnd, World.child, h1]
        rw [he, List.append_nil]
        by_cases h2 : w.b.pc = .getval
        · exact step_turn_childB_getval N C hC w t log hinv h2 ha hl h
        · exact step_turn_childB_easy N C w t log hinv h1 h2 h

theorem step_stuck_parent (N C : Nat) (w t : World)
    (hinv : Stuck N C w) (h : parentCall N C w = some t) : Stuck N C t := by
  obtain ⟨⟨file, pos⟩, ⟨s0, s1⟩, rem, ⟨apc, al, ac, ai⟩, ⟨bpc, bl, bc, bi⟩,
    ⟨ppc, pl, i, j, out⟩⟩ := w
  obtain ⟨k1, k2, k3, k4, k5, k6, k7, k8, k9, k10⟩ := hinv
  simp only [finishedCount] at k3
  simp only [] at k1 k2 k3 k4 k5 k6 k7 k8 k9 k10
  subst k6
  rcases k8 with k8 | k8 | k8 <;> subst k8 <;> simp only [parentCall] at h
  · simp at h; subst h
    exact ⟨k1, k2, k3, k4, k5, rfl, k7, by simp, k9, k10⟩
  · simp at h; subst h
    exact ⟨k1, k2, k3, k4, k5, rfl, k7, by simp, k9, k10⟩
  · have hN : 0 < N := by omega
    simp [hN, k5] at h; subst h
    exact ⟨k1, k2, k3, k4, k5, rfl, k7, by simp, k9, k10⟩

theorem step_stuck_childA (N C : Nat) (w t : World)
    (hinv : Stuck N C w) (h : childCall N C .A w = some t) : Stuck N C t := by
  obtain ⟨⟨file, pos⟩, ⟨s0, s1⟩, rem, ⟨apc, al, ac, ai⟩, ⟨bpc, bl, bc, bi⟩,
    ⟨ppc, pl, i, j, out⟩⟩ := w
  obtain ⟨k1, k2, k3, k4, k5, k6, k7, k8, k9, k10⟩ := hinv
  simp only [finishedCount] at k3
  simp only [] at k1 k2 k3 k4 k5 k6 k7 k8 k9 k10
  subst k4
  have e0 : (if finished ChildAt.iter = true then (1 : Nat) else 0) = 0 := rfl
  have e1 : (if finished ChildAt.unlock = true then (1 : Nat) else 0) = 0 := rfl
  have e2 : (if finished ChildAt.seek = true then (1 : Nat) else 0) = 0 := rfl
  have e3 : (if finished ChildAt.getval = true then (1 : Nat) else 0) = 0 := rfl
  have e4 : (if finished ChildAt.poll = true then (1 : Nat) else 0) = 0 := rfl
  have hfb : (if finished bpc = true then (1 : Nat) else 0) = 0 := by omega
  cases apc <;> simp only [childCall, World.child] at h
  · by_cases hw : al.startWrite = 0
    · simp [hw] at h; subst h
      exact ⟨k1, k2, by simpa [finishedCount] using k3, rfl, k5, k6, k7, k8, k9, k10⟩
    · simp only [ne_eq, hw, not_false_eq_true, if_true] at h
      obtain ⟨v, ht⟩ := afterSemopCall_spec _ _ _ _ _ (lockOf_cases .A) h
      subst ht
      refine ⟨k1, k2, ?_, rfl, k5, k6, k7, k8, by simp [World.setChild, World.child], k10⟩
      simp only [finishedCount, World.setChild, World.child, e2, hfb]
  · simp [World.setChild] at h; subst h
    refine ⟨k1, k2, ?_, rfl, k5, k6, k7, k8, by simp, k10⟩
    simp only [finishedCount, e3, hfb]
  · simp [World.setChild, semctlGetval] at h; subst h
    refine ⟨k1, k2, ?_, rfl, k5, k6, k7, k8, by simp, k10⟩
    simp only [finishedCount, e0, hfb]
  · obtain ⟨g1, g2⟩ := k9 rfl
    by_cases hi : ai < C
    · have hx : ¬ (N : Int) < ac + 1 := by omega
      simp [hi, hx, World.setChild] at h; subst h
      refine ⟨k1, k2, ?_, rfl, k5, k6, k7, k8, ?_, k10⟩
      · simp only [finishedCount, e0, hfb]
      · intro _; exact ⟨by simp; omega, by simp; omega⟩
    · have hac : ¬ ac < 0 := by omega
      have hnat : ac.toNat = s0 + ai := by omega
      have hmax : ¬ s0 + ai ≤ SEMVMX := by omega
      simp only [hi, if_false, semctlSetval, Bool.false_eq_true, hac, hnat, SemSet.setval,
        hmax, World.setChild, Option.some.injEq] at h
      subst h
      refine ⟨k1, k2, ?_, rfl, k5, k6, k7, k8, by simp, k10⟩
      simp only [finishedCount, e1, hfb]
  · obtain ⟨v, ht⟩ := afterSemopCall_spec _ _ _ _ _ (unlockOf_cases .A) h
    subst ht
    refine ⟨k1, k2, ?_, rfl, k5, k6, k7, k8, by simp [World.setChild, World.child], k10⟩
    simp only [finishedCount, World.setChild, World.child, e4, hfb]
  · simp [finished] at k3
  · simp [finished] at k3
  · simp [finished] at k3
  · simp [finished] at k3

theorem step_stuck_childB (N C : Nat) (w t : World)
    (hinv : Stuck N C w) (h : childCall N C .B w = some t) : Stuck N C t := by
  obtain ⟨⟨file, pos⟩, ⟨s0, s1⟩, rem, ⟨apc, al, ac, ai⟩, ⟨bpc, bl, bc, bi⟩,
    ⟨ppc, pl, i, j, out⟩⟩ := w
  obtain ⟨k1, k2, k3, k4, k5, k6, k7, k8, k9, k10⟩ := hinv
  simp only [finishedCount] at k3
  simp only [] at k1 k2 k3 k4 k5 k6 k7 k8 k9 k10
  subst k4
  have e0 : (if finished ChildAt.iter = true then (1 : Nat) else 0) = 0 := rfl
  have e1 : (if finished ChildAt.unlock = true then (1 : Nat) else 0) = 0 := rfl
  have e2 : (if finished ChildAt.seek = true then (1 : Nat) else 0) = 0 := rfl
  have e3 : (if finished ChildAt.getval = true then (1 : Nat) else 0) = 0 := rfl
  have e4 : (if finished ChildAt.poll = true then (1 : Nat) else 0) = 0 := rfl
  have hfa : (if finished apc = true then (1 : Nat) else 0) = 0 := by omega
  cases bpc <;> simp only [childCall, World.child] at h
  · by_cases hw : bl.startWrite = 0
    · simp [hw] at h; subst h
      exact ⟨k1, k2, by simpa [finishedCount] using k3, rfl, k5, k6, k7, k8, k9, k10⟩
    · simp only [ne_eq, hw, not_false_eq_true, if_true] at h
      obtain ⟨v, ht⟩ := afterSemopCall_spec _ _ _ _ _ (lockOf_cases .B) h
      subst ht
      refine ⟨k1, k2, ?_, rfl, k5, k6, k7, k8, k9, by simp [World.setChild, World.child]⟩
      simp only [finishedCount, World.setChild, World.child, e2, hfa]
  · simp [World.setChild] at h; subst h
    refine ⟨k1, k2, ?_, rfl, k5, k6, k7, k8, k9, by simp⟩
    simp only [finishedCount, e3, hfa]
  · simp [World.setChild, semctlGetval] at h; subst h
    refine ⟨k1, k2, ?_, rfl, k5, k6, k7, k8, k9, by simp⟩
    simp only [finishedCount, e0, hfa]
  · obtain ⟨g1, g2⟩ := k10 rfl
    by_cases hi : bi < C
    · have hx : ¬ (N : Int) < bc + 1 := by omega
      simp [hi, hx, World.setChild] at h; subst h
      refine ⟨k1, k2, ?_, rfl, k5, k6, k7, k8, k9, ?_⟩
      · simp only [finishedCount, e0, hfa]
      · intro _; exact ⟨by simp; omega, by simp; omega⟩
    · have hac : ¬ bc < 0 := by omega
      have hnat : bc.toNat = s0 + bi := by omega
      have hmax : ¬ s0 + bi ≤ SEMVMX := by omega
      simp only [hi, if_false, semctlSetval, Bool.false_eq_true, hac, hnat, SemSet.setval,
        hmax, World.setChild, Option.some.injEq] at h
      subst h
      refine ⟨k1, k2, ?_, rfl, k5, k6, k7, k8, k9, by simp⟩
      simp only [finishedCount, e1, hfa]
  · obtain ⟨v, ht⟩ := afterSemopCall_spec _ _ _ _ _ (unlockOf_cases .B) h
    subst ht
    refine ⟨k1, k2, ?_, rfl, k5, k6, k7, k8, k9, by simp [World.setChild, World.child]⟩
    simp only [finishedCount, World.setChild, World.child, e4, hfa]
  · simp [finished] at k3
  · simp [finished] at k3
  · simp [finished] at k3
  · simp [finished] at k3

/-- Once a `SETVAL` has failed with `ERANGE`, the run stays in such a state. -/
theorem step_stuck (N C : Nat) (w t : World) (x : Actor)
    (hinv : Stuck N C w) (h : call N C w x = some t) : Stuck N C t := by
  cases x with
  | parent => exact step_stuck_parent N C w t hinv h
  | child p =>
    cases p
    · exact step_stuck_childA N C w t hinv h
    · exact step_stuck_childB N C w t hinv h

theorem step_file_parent (G : Prop) (N C : Nat) (w t : World) (log : List Producer)
    (hturn : TurnInv N C w log) (hfile : FileInv G N C w log)
    (hq : G → offsetKept N w .parent = true)
    (h : parentCall N C w = some t) : FileInv G N C t log := by
  obtain ⟨⟨file, pos⟩, ⟨s0, s1⟩, rem, ⟨apc, al, ac, ai⟩, ⟨bpc, bl, bc, bi⟩,
    ⟨ppc, pl, i, j, out⟩⟩ := w
  obtain ⟨_, _, _, _, _, h6, _, _⟩ := hturn
  obtain ⟨f1, f2, f3⟩ := hfile
  simp only [partRows] at f1
  simp only [] at f1 f2 f3 h6
  cases ppc <;> simp only [parentCall] at h
  · simp at h; subst h
    exact ⟨f1, f2, f3⟩
  · simp at h; subst h
    exact ⟨f1, f2, f3⟩
  · by_cases hi : i < N
    · by_cases hr : pl.startRead = 0
      · simp [hi, hr] at h; subst h
        exact ⟨f1, f2, f3⟩
      · simp [hi, hr] at h; subst h
        refine ⟨f1, fun h0 => absurd h0 hr, ?_⟩
        intro hG hpos
        have hq := hq hG
        simp [offsetKept, hi, hr] at hq
        rcases hpos with hpos | hpos <;> simp [hq] at hpos
    · simp [hi] at h; subst h
      exact ⟨f1, f2, f3⟩
  · have hr := h6 (Or.inl rfl)
    by_cases hj : j < C
    · by_cases hb : N < i + 1
      · simp [hj, hb] at h; subst h
        exact ⟨f1, f2, f3⟩
      · simp [hj, hb] at h; subst h
        refine ⟨?_, fun h0 => absurd h0 hr, ?_⟩
        · simp only [partRows]
          rw [readRowFromShm_file]
          exact f1
        · intro hG hpos
          have hq := hq hG
          simp [offsetKept] at hq
          rcases hpos with hpos | hpos <;> simp [hq] at hpos
    · simp [hj] at h; subst h
      exact ⟨f1, f2, f3⟩
  · simp at h; subst h
    exact ⟨f1, f2, f3⟩
  · simp at h

theorem turnRows_snoc (pid c n : Nat) :
    turnRows pid c (n + 1) = turnRows pid c n ++ [⟨c + n + 1, pid⟩] := by
  rw [← turnRows_append pid c n 1]
  simp [turnRows]

theorem writeRowToShm_end (file : List Row) (pid r : Nat) :
    writeRowToShm ⟨file, file.length⟩ pid r = ⟨file ++ [⟨r, pid⟩], file.length + 1⟩ := by
  simp [writeRowToShm, writeAt_end]

theorem step_file_childA (G : Prop) (N C : Nat) (hC : 1 ≤ C) (w t : World)
    (log : List Producer) (hturn : TurnInv N C w log) (hfile : FileInv G N C w log)
    (hor : G ∨ C ∣ N) (h : childCall N C .A w = some t) :
    FileInv G N C t (log ++ turnEnd N C w (.child .A)) := by
  obtain ⟨⟨file, pos⟩, ⟨s0, s1⟩, rem, ⟨apc, al, ac, ai⟩, ⟨bpc, bl, bc, bi⟩,
    ⟨ppc, pl, i, j, out⟩⟩ := w
  obtain ⟨h1, _, h3, _, h5, _, _, _⟩ := hturn
  obtain ⟨f1, f2, f3⟩ := hfile
  obtain ⟨ta1, ta2, ta3, ta4⟩ := turn_arith N C log.length hC
  simp only [partRows] at f1
  simp only [] at f1 f2 f3 h1 h3 h5
  have hne : ∀ pc : ChildAt, pc ≠ .iter →
      turnEnd N C ⟨⟨file, pos⟩, ⟨s0, s1⟩, rem, ⟨pc, al, ac, ai⟩, ⟨bpc, bl, bc, bi⟩,
        ⟨ppc, pl, i, j, out⟩⟩ (.child .A) = [] := by
    intro pc hpc; simp [turnEnd, World.child, hpc]
  cases apc <;> simp only [childCall, World.child] at h
  · rw [hne _ (by simp), List.append_nil]
    by_cases hw : al.startWrite = 0
    · simp [hw] at h; subst h
      exact ⟨f1, f2, f3⟩
    · simp only [ne_eq, hw, not_false_eq_true, if_true] at h
      obtain ⟨v, ht⟩ := afterSemopCall_spec _ _ _ _ _ (lockOf_cases .A) h
      subst ht
      refine ⟨?_, f2, ?_⟩
      · simpa [partRows, World.setChild, World.child] using f1
      · simpa [World.setChild, World.child, positioned] using f3
  · rw [hne _ (by simp), List.append_nil]
    simp [World.setChild, lseekEnd] at h; subst h
    refine ⟨?_, fun _ => rfl, fun _ _ => rfl⟩
    simpa [partRows] using f1
  · rw [hne _ (by simp), List.append_nil]
    simp [World.setChild] at h; subst h
    refine ⟨?_, f2, ?_⟩
    · simpa [partRows, turnRows] using f1
    · simpa [positioned] using f3
  · obtain ⟨g1, g2, g3, g4⟩ := h3 rfl
    rw [← h1] at ta1 ta2 ta3 ta4
    simp only [if_true, g4, if_false, List.append_nil] at f1
    by_cases hi : ai < C
    · by_cases hx : (N : Int) < ac + 1
      · simp [hi, hx, World.setChild] at h
        subst h
        simp only [turnEnd, World.child, hi, hx, not_true_eq_false, false_or, and_self, if_true,
          gt_iff_lt]
        refine ⟨?_, f2, ?_⟩
        · simp only [partRows, g4, if_false, List.append_nil]
          rw [fileFrom_append, Nat.zero_add, ← h1, f1]
          have hmin : min C (N - s0) = ai := by omega
          simp [hmin, getpid]
        · intro hd _
          exact f3 hd (Or.inl rfl)
      · simp only [hi, hx, if_true, if_false, gt_iff_lt] at h
        have hpos : pos = file.length := by
          rcases hor with hG | hdiv
          · exact f3 hG (Or.inl rfl)
          · apply f2
            by_contra hcon
            have hq := h5 hcon
            have hmin : min log.length (N / C) = N / C := by omega
            rw [hmin, Nat.mul_div_cancel' hdiv] at h1
            omega
        subst hpos
        have hnat : (ac + 1).toNat = s0 + ai + 1 := by omega
        rw [hnat, writeRowToShm_end] at h
        simp only [World.setChild, Option.some.injEq] at h
        subst h
        simp only [turnEnd, World.child, hi, hx, not_true_eq_false, false_or, and_false,
          if_false, gt_iff_lt, List.append_nil]
        refine ⟨?_, fun _ => by simp, fun _ _ => by simp⟩
        simp only [partRows, g4, if_true, if_false, List.append_nil]
        rw [turnRows_snoc, ← List.append_assoc, ← f1]
    · simp only [hi, if_false, World.setChild, Option.some.injEq] at h
      subst h
      simp only [turnEnd, World.child, hi, not_false_eq_true, true_or, and_self, if_true]
      refine ⟨?_, f2, ?_⟩
      · simp only [partRows, g4, if_false, List.append_nil]
        rw [fileFrom_append, Nat.zero_add, ← h1, f1]
        have hmin : min C (N - s0) = ai := by omega
        simp [hmin, getpid]
      · intro hd _
        exact f3 hd (Or.inl rfl)
  · rw [hne _ (by simp), List.append_nil]
    obtain ⟨v, ht⟩ := afterSemopCall_spec _ _ _ _ _ (unlockOf_cases .A) h
    subst ht
    refine ⟨?_, f2, ?_⟩
    · simpa [partRows, World.setChild, World.child] using f1
    · simpa [World.setChild, World.child, positioned] using f3
  · rw [hne _ (by simp), List.append_nil]
    obtain ⟨v, ht⟩ := afterSemopCall_spec _ _ _ _ _ (unlockOf_cases .A) h
    subst ht
    refine ⟨?_, f2, ?_⟩
    · simpa [partRows, World.setChild, World.child] using f1
    · simpa [World.setChild, World.child, positioned] using f3
  · rw [hne _ (by simp), List.append_nil]
    simp [World.setChild] at h; subst h
    refine ⟨?_, ?_, ?_⟩
    · simpa [partRows] using f1
    · intro h0; simp [sigHandler, SIGUSR1] at h0
    · simpa [positioned] using f3
  · rw [hne _ (by simp), List.append_nil]
    simp [World.setChild] at h; subst h
    refine ⟨?_, f2, ?_⟩
    · simpa [partRows] using f1
    · simpa [positioned] using f3
  · simp at h

theorem step_file_childB (G : Prop) (N C : Nat) (hC : 1 ≤ C) (w t : World)
    (log : List Producer) (hturn : TurnInv N C w log) (hfile : FileInv G N C w log)
    (hor : G ∨ C ∣ N) (h : childCall N C .B w = some t) :
    FileInv G N C t (log ++ turnEnd N C w (.child .B)) := by
  obtain ⟨⟨file, pos⟩, ⟨s0, s1⟩, rem, ⟨apc, al, ac, ai⟩, ⟨bpc, bl, bc, bi⟩,
    ⟨ppc, pl, i, j, out⟩⟩ := w
  obtain ⟨h1, _, h3, h4, h5, _, _, _⟩ := hturn
  obtain ⟨f1, f2, f3⟩ := hfile
  obtain ⟨ta1, ta2, ta3, ta4⟩ := turn_arith N C log.length hC
  simp only [partRows] at f1
  simp only [] at f1 f2 f3 h1 h3 h4 h5
  have hne : ∀ pc : ChildAt, pc ≠ .iter →
      turnEnd N C ⟨⟨file, pos⟩, ⟨s0, s1⟩, rem, ⟨apc, al, ac, ai⟩, ⟨pc, bl, bc, bi⟩,
        ⟨ppc, pl, i, j, out⟩⟩ (.child .B) = [] := by
    intro pc hpc; simp [turnEnd, World.child, hpc]
  cases bpc <;> simp only [childCall, World.child] at h
  · rw [hne _ (by simp), List.append_nil]
    by_cases hw : bl.startWrite = 0
    · simp [hw] at h; subst h
      exact ⟨f1, f2, f3⟩
    · simp only [ne_eq, hw, not_false_eq_true, if_true] at h
      obtain ⟨v, ht⟩ := afterSemopCall_spec _ _ _ _ _ (lockOf_cases .B) h
      subst ht
      refine ⟨?_, f2, ?_⟩
      · simpa [partRows, World.setChild, World.child] using f1
      · simpa [World.setChild, World.child, positioned] using f3
  · rw [hne _ (by simp), List.append_nil]
    simp [World.setChild, lseekEnd] at h; subst h
    refine ⟨?_, fun _ => rfl, fun _ _ => rfl⟩
    simpa [partRows] using f1
  · rw [hne _ (by simp), List.append_nil]
    simp [World.setChild] at h; subst h
    refine ⟨?_, f2, ?_⟩
    · simpa [partRows, turnRows] using f1
    · simpa [positioned] using f3
  · obtain ⟨g1, g2, g3⟩ := h4 rfl
    have g4 : apc ≠ .iter := fun ha => (h3 ha).2.2.2 rfl
    rw [← h1] at ta1 ta2 ta3 ta4
    simp only [if_true, g4, if_false, List.nil_append] at f1
    by_cases hi : bi < C
    · by_cases hx : (N : Int) < bc + 1
      · simp [hi, hx, World.setChild] at h
        subst h
        simp only [turnEnd, World.child, hi, hx, not_true_eq_false, false_or, and_self, if_true,
          gt_iff_lt]
        refine ⟨?_, f2, ?_⟩
        · simp only [partRows, g4, if_false, List.nil_append]
          rw [fileFrom_append, Nat.zero_add, ← h1, f1]
          have hmin : min C (N - s0) = bi := by omega
          simp [hmin, getpid]
        · intro hd _
          exact f3 hd (Or.inr rfl)
      · simp only [hi, hx, if_true, if_false, gt_iff_lt] at h
        have hpos : pos = file.length := by
          rcases hor with hG | hdiv
          · exact f3 hG (Or.inr rfl)
          · apply f2
            by_contra hcon
            have hq := h5 hcon
            have hmin : min log.length (N / C) = N / C := by omega
            rw [hmin, Nat.mul_div_cancel' hdiv] at h1
            omega
        subst hpos
        have hnat : (bc + 1).toNat = s0 + bi + 1 := by omega
        rw [hnat, writeRowToShm_end] at h
        simp only [World.setChild, Option.some.injEq] at h
        subst h
        simp only [turnEnd, World.child, hi, hx, not_true_eq_false, false_or, and_false,
          if_false, gt_iff_lt, List.append_nil]
        refine ⟨?_, fun _ => by simp, fun _ _ => by simp⟩
        simp only [partRows, g4, if_true, if_false, List.nil_append]
        rw [turnRows_snoc, ← List.append_assoc, ← f1]
    · simp only [hi, if_false, World.setChild, Option.some.injEq] at h
      subst h
      simp only [turnEnd, World.child, hi, not_false_eq_true, true_or, and_self, if_true]
      refine ⟨?_, f2, ?_⟩
      · simp only [partRows, g4, if_false, List.nil_append]
        rw [fileFrom_append, Nat.zero_add, ← h1, f1]
        have hmin : min C (N - s0) = bi := by omega
        simp [hmin, getpid]
      · intro hd _
        exact f3 hd (Or.inr rfl)
  · rw [hne _ (by simp), List.append_nil]
    obtain ⟨v, ht⟩ := afterSemopCall_spec _ _ _ _ _ (unlockOf_cases .B) h
    subst ht
    refine ⟨?_, f2, ?_⟩
    · simpa [partRows, World.setChild, World.child] using f1
    · simpa [World.setChild, World.child, positioned] using f3
  · rw [hne _ (by simp), List.append_nil]
    obtain ⟨v, ht⟩ := afterSemopCall_spec _ _ _ _ _ (unlockOf_cases .B) h
    subst ht
    refine ⟨?_, f2, ?_⟩
    · simpa [partRows, World.setChild, World.child] using f1
    · simpa [World.setChild, World.child, positioned] using f3
  · rw [hne _ (by simp), List.append_nil]
    simp [World.setChild] at h; subst h
    refine ⟨?_, ?_, ?_⟩
    · simpa [partRows] using f1
    · intro h0; simp [sigHandler, SIGUSR1] at h0
    · simpa [positioned] using f3
  · rw [hne _ (by simp), List.append_nil]
    simp [World.setChild] at h; subst h
    refine ⟨?_, f2, ?_⟩
    · simpa [partRows] using f1
    · simpa [positioned] using f3
  · simp at h

/-- One call keeps the invariant of the file. -/
theorem step_file (G : Prop) (N C : Nat) (hC : 1 ≤ C) (w t : World) (x : Actor)
    (log : List Producer) (hturn : TurnInv N C w log) (hfile : FileInv G N C w log)
    (hor : G ∨ C ∣ N) (hq : G → offsetKept N w x = true) (h : call N C w x = some t) :
    FileInv G N C t (log ++ turnEnd N C w x) := by
  cases x with
  | parent =>
    simp only [turnEnd, List.append_nil]
    exact step_file_parent G N C w t log hturn hfile hq h
  | child p =>
    cases p
    · exact step_file_childA G N C hC w t log hturn hfile hor h
    · exact step_file_childB G N C hC w t log hturn hfile hor h

theorem turnInv_start (N C : Nat) : TurnInv N C start [] := by
  simp [TurnInv, start, finishedCount, finished]

theorem fileInv_start (G : Prop) (N C : Nat) : FileInv G N C start [] := by
  simp [FileInv, start, partRows, fileFrom]

theorem run_stuck (N C : Nat) :
    ∀ (sched : List Actor) (w t : World), Stuck N C w → run N C w sched = some t →
      Stuck N C t := by
  intro sched
  induction sched with
  | nil => intro w t hw h; simp [run] at h; subst h; exact hw
  | cons x xs ih =>
    intro w t hw h
    simp only [run] at h
    cases hx : call N C w x with
    | none => simp [hx] at h
    | some u =>
      rw [hx] at h
      exact ih u t (step_stuck N C w u x hw hx) h

/-- Along a run with non-overlapping turns in which the row counter is read while the
semaphore set exists (and, unless `C ∣ N`, the parent does not move the file offset under a
producer), the invariants of the turns and of the file hold, or a `SETVAL` has failed. -/
theorem run_good (G : Prop) (N C : Nat) (hC : 1 ≤ C) (hor : G ∨ C ∣ N) :
    ∀ (sched : List Actor) (w t : World) (log : List Producer),
      TurnInv N C w log → FileInv G N C w log →
      along turnsApart N C w sched = true → along cursorLive N C w sched = true →
      (G → along (offsetKept N) N C w sched = true) →
      run N C w sched = some t →
      (TurnInv N C t (log ++ turnLog N C w sched) ∧
        FileInv G N C t (log ++ turnLog N C w sched)) ∨ Stuck N C t := by
  intro sched
  induction sched with
  | nil =>
    intro w t log h1 h2 _ _ _ h
    simp [run] at h; subst h
    left
    simpa [turnLog] using ⟨h1, h2⟩
  | cons x xs ih =>
    intro w t log h1 h2 ha hl hq h
    simp only [run] at h
    cases hx : call N C w x with
    | none => simp [hx] at h
    | some u =>
      rw [hx] at h
      simp only [along, hx, Bool.and_eq_true] at ha hl hq
      have hq1 : G → offsetKept N w x = true := fun hG => (hq hG).1
      have hq2 : G → along (offsetKept N) N C u xs = true := fun hG => (hq hG).2
      have hf := step_file G N C hC w u x log h1 h2 hor hq1 hx
      simp only [turnLog, hx]
      rw [← List.append_assoc]
      rcases step_turn N C hC w u x log h1 ha.1 hl.1 hx with ht | hs
      · exact ih u t _ ht hf ha.2 hl.2 hq2 h
      · exact Or.inr (run_stuck N C xs u t hs h)

/-- Once more turns are completed than there are full chunks, the first `N` records of the
file are rows `1, ..., N`, whatever follows. -/
theorem fileFrom_first (N C : Nat) (hC : 1 ≤ C) (log : List Producer)
    (hL : N / C < log.length) (rest : List Row) :
    FirstRows N (fileFrom N C 0 log ++ rest) := by
  have hidx := fileFrom_index N C hC log
  have hq : C * (N / C) + N % C = N := Nat.div_add_mod N C
  have hmin : min log.length (N / C) = N / C := by omega
  obtain ⟨e, he⟩ : ∃ e, log.length - N / C = e + 1 := ⟨log.length - N / C - 1, by omega⟩
  rw [hmin, he, List.replicate_succ, List.flatten_cons, ← List.append_assoc,
    Nat.add_comm (C * (N / C)) 1, List.range'_append_1, Nat.add_comm (N % C), hq] at hidx
  intro j hj
  have hlen : N ≤ (fileFrom N C 0 log).length := by
    have := congrArg List.length hidx
    simp at this
    omega
  rw [List.getElem?_append_left (by omega)]
  have : ((fileFrom N C 0 log).map Row.rowIndex)[j]? = some (j + 1) := by
    rw [hidx, List.getElem?_append_left (by simpa using hj), List.getElem?_range' 1 1 hj]
    simp [Nat.add_comm]
  simpa [List.getElem?_map] using this

theorem readInv_start (N : Nat) : ReadInv N start := by
  simp [ReadInv, start]

theorem step_read_parent (N C : Nat) (w t : World) (hread : ReadInv N w)
    (hfirst : w.par.latches.startRead ≠ 0 → FirstRows N w.shm.file)
    (hq : offsetKept N w .parent = true)
    (h : parentCall N C w = some t) : ReadInv N t := by
  obtain ⟨⟨file, pos⟩, ⟨s0, s1⟩, rem, ⟨apc, al, ac, ai⟩, ⟨bpc, bl, bc, bi⟩,
    ⟨ppc, pl, i, j, out⟩⟩ := w
  obtain ⟨r1, r2, r3, r4, r5, r6, r7, r8⟩ := hread
  simp only [] at hfirst r1 r2 r3 r4 r5 r6 r7 r8
  simp only [offsetKept] at hq
  cases ppc <;> simp only [parentCall] at h
  · simp at h; subst h
    have hi := r4 (Or.inl rfl)
    subst hi
    exact ⟨by simp, r2, by simp, by simp, by simp, r6, r7, r8⟩
  · simp at h; subst h
    have hi := r4 (Or.inr rfl)
    subst hi
    exact ⟨by simp, r2, by simp, by simp, by simp, r6, r7, r8⟩
  · by_cases hi : i < N
    · by_cases hr : pl.startRead = 0
      · simp [hi, hr] at h; subst h
        exact ⟨r1, r2, r3, r4, r5, r6, r7, r8⟩
      · simp [hi, hr] at h; subst h
        simp [hi, hr] at hq
        exact ⟨fun _ => ⟨by simp [lseekSet], by simp; omega, hq.1, hq.2⟩, r2, by simp, by simp,
          fun _ => hr, r6, r7, r8⟩
    · simp [hi] at h; subst h
      refine ⟨by simp, r2, fun _ => by simp; omega, by simp, ?_, r6, r7, r8⟩
      intro hh
      exact r5 (Or.inr (by simpa using hh))
  · have hr := r5 (Or.inl rfl)
    obtain ⟨g1, g2, g3, g4⟩ := r1 rfl
    subst g1
    by_cases hj : j < C
    · by_cases hb : N < pos + 1
      · simp [hj, hb] at h; subst h
        refine ⟨by simp, ?_, by simp, by simp, fun _ => hr, r6, r7, r8⟩
        simp only []
        rw [r2]
        have e1 : min pos N = N := by omega
        have e2 : min (pos + 1) N = N := by omega
        rw [e1, e2]
      · simp only [hj, hb, if_true, if_false, gt_iff_lt] at h
        have hrow := hfirst hr pos (by omega)
        cases hget : file[pos]? with
        | none => rw [hget] at hrow; simp at hrow
        | some r =>
          rw [hget] at hrow
          simp only [Option.map_some', Option.some.injEq] at hrow
          simp only [readRowFromShm, hget, Option.some.injEq] at h
          subst h
          refine ⟨fun _ => ⟨rfl, by simp; omega, g3, g4⟩, ?_, by simp, by simp, fun _ => hr,
            r6, r7, r8⟩
          simp only [List.map_append, r2, List.map_cons, Option.map_some', hrow, List.map_nil]
          have e1 : min pos N = pos := by omega
          have e2 : min (pos + 1) N = pos + 1 := by omega
          rw [e1, e2, List.range'_concat]
          simp [Nat.add_comm]
    · simp [hj] at h; subst h
      exact ⟨by simp, r2, by simp, by simp, fun _ => hr, r6, r7, r8⟩
  · simp at h; subst h
    have hN := r3 (Or.inl rfl)
    refine ⟨by simp, r2, fun _ => hN, by simp, ?_, ?_, r7, r8⟩
    · intro hh
      exact r5 (Or.inr (by simpa using hh))
    · intro _ hpos
      exact r5 (Or.inr (by omega))
  · simp at h

theorem step_read_childA (N C : Nat) (w t : World) (hread : ReadInv N w)
    (hk : chunkKept w (.child .A) = true)
    (h : childCall N C .A w = some t) : ReadInv N t := by
  obtain ⟨⟨file, pos⟩, ⟨s0, s1⟩, rem, ⟨apc, al, ac, ai⟩, ⟨bpc, bl, bc, bi⟩,
    ⟨ppc, pl, i, j, out⟩⟩ := w
  obtain ⟨r1, r2, r3, r4, r5, r6, r7, r8⟩ := hread
  simp only [] at r1 r2 r3 r4 r5 r6 r7 r8
  simp only [chunkKept, World.child] at hk
  cases apc <;> simp only [childCall, World.child] at h
  · by_cases hw : al.startWrite = 0
    · simp [hw] at h; subst h
      exact ⟨r1, r2, r3, r4, r5, r6, r7, r8⟩
    · simp only [ne_eq, hw, not_false_eq_true, if_true] at h
      obtain ⟨v, ht⟩ := afterSemopCall_spec _ _ _ _ _ (lockOf_cases .A) h
      subst ht
      refine ⟨?_, r2, r3, r4, r5, r6, by simp [World.setChild, World.child], r8⟩
      simpa [World.setChild, World.child, positioned] using r1
  · simp [World.setChild] at h; subst h
    simp at hk
    exact ⟨fun hp => absurd hp hk, r2, r3, r4, r5, r6, by simp, r8⟩
  · simp [World.setChild] at h; subst h
    refine ⟨fun hp => ?_, r2, r3, r4, r5, r6, by simp, r8⟩
    have := (r1 hp).2.2.1
    simp [positioned] at this
  · have hne : ppc ≠ .iter := by
      intro hp
      have := (r1 hp).2.2.1
      simp [positioned] at this
    by_cases hi : ai < C
    · by_cases hx : (N : Int) < ac + 1
      · simp [hi, hx, World.setChild] at h; subst h
        exact ⟨fun hp => absurd hp hne, r2, r3, r4, r5, r6, by simp, r8⟩
      · simp [hi, hx, World.setChild] at h; subst h
        exact ⟨fun hp => absurd hp hne, r2, r3, r4, r5, r6, by simp, r8⟩
    · simp [hi, World.setChild] at h; subst h
      exact ⟨fun hp => absurd hp hne, r2, r3, r4, r5, r6, by simp, r8⟩
  · obtain ⟨v, ht⟩ := afterSemopCall_spec _ _ _ _ _ (unlockOf_cases .A) h
    subst ht
    refine ⟨?_, r2, r3, r4, r5, r6, by simp [World.setChild, World.child], r8⟩
    simpa [World.setChild, World.child, positioned] using r1
  · obtain ⟨v, ht⟩ := afterSemopCall_spec _ _ _ _ _ (unlockOf_cases .A) h
    subst ht
    refine ⟨?_, r2, r3, r4, r5, r6, by simp [World.setChild, World.child], r8⟩
    simpa [World.setChild, World.child, positioned] using r1
  · simp [World.setChild] at h; subst h
    have h1 : (sigHandler SIGUSR1 pl).startRead ≠ 0 := by simp [sigHandler, SIGUSR1]
    refine ⟨?_, r2, r3, r4, fun _ => h1, fun _ _ => h1, fun _ => h1, fun _ => h1⟩
    simpa [positioned] using r1
  · simp [World.setChild] at h; subst h
    have h1 := r7 (Or.inl rfl)
    refine ⟨?_, r2, r3, r4, r5, fun _ _ => h1, fun _ => h1, r8⟩
    simpa [positioned] using r1
  · simp at h

theorem step_read_childB (N C : Nat) (w t : World) (hread : ReadInv N w)
    (hk : chunkKept w (.child .B) = true)
    (h : childCall N C .B w = some t) : ReadInv N t := by
  obtain ⟨⟨file, pos⟩, ⟨s0, s1⟩, rem, ⟨apc, al, ac, ai⟩, ⟨bpc, bl, bc, bi⟩,
    ⟨ppc, pl, i, j, out⟩⟩ := w
  obtain ⟨r1, r2, r3, r4, r5, r6, r7, r8⟩ := hread
  simp only [] at r1 r2 r3 r4 r5 r6 r7 r8
  simp only [chunkKept, World.child] at hk
  cases bpc <;> simp only [childCall, World.child] at h
  · by_cases hw : bl.startWrite = 0
    · simp [hw] at h; subst h
      exact ⟨r1, r2, r3, r4, r5, r6, r7, r8⟩
    · simp only [ne_eq, hw, not_false_eq_true, if_true] at h
      obtain ⟨v, ht⟩ := afterSemopCall_spec _ _ _ _ _ (lockOf_cases .B) h
      subst ht
      refine ⟨?_, r2, r3, r4, r5, r6, r7, by simp [World.setChild, World.child]⟩
      simpa [World.setChild, World.child, positioned] using r1
  · simp [World.setChild] at h; subst h
    simp at hk
    exact ⟨fun hp => absurd hp hk, r2, r3, r4, r5, r6, r7, by simp⟩
  · simp [World.setChild] at h; subst h
    refine ⟨fun hp => ?_, r2, r3, r4, r5, r6, r7, by simp⟩
    have := (r1 hp).2.2.2
    simp [positioned] at this
  · have hne : ppc ≠ .iter := by
      intro hp
      have := (r1 hp).2.2.2
      simp [positioned] at this
    by_cases hi : bi < C
    · by_cases hx : (N : Int) < bc + 1
      · simp [hi, hx, World.setChild] at h; subst h
        exact ⟨fun hp => absurd hp hne, r2, r3, r4, r5, r6, r7, by simp⟩
      · simp [hi, hx, World.setChild] at h; subst h
        exact ⟨fun hp => absurd hp hne, r2, r3, r4, r5, r6, r7, by simp⟩
    · simp [hi, World.setChild] at h; subst h
      exact ⟨fun hp => absurd hp hne, r2, r3, r4, r5, r6, r7, by simp⟩
  · obtain ⟨v, ht⟩ := afterSemopCall_spec _ _ _ _ _ (unlockOf_cases .B) h
    subst ht
    refine ⟨?_, r2, r3, r4, r5, r6, r7, by simp [World.setChild, World.child]⟩
    simpa [World.setChild, World.child, positioned] using r1
  · obtain ⟨v, ht⟩ := afterSemopCall_spec _ _ _ _ _ (unlockOf_cases .B) h
    subst ht
    refine ⟨?_, r2, r3, r4, r5, r6, r7, by simp [World.setChild, World.child]⟩
    simpa [World.setChild, World.child, positioned] using r1
  · simp [World.setChild] at h; subst h
    have h1 : (sigHandler SIGUSR1 pl).startRead ≠ 0 := by simp [sigHandler, SIGUSR1]
    refine ⟨?_, r2, r3, r4, fun _ => h1, fun _ _ => h1, fun _ => h1, fun _ => h1⟩
    simpa [positioned] using r1
  · simp [World.setChild] at h; subst h
    have h1 := r8 (Or.inl rfl)
    refine ⟨?_, r2, r3, r4, r5, fun _ _ => h1, r7, fun _ => h1⟩
    simpa [positioned] using r1
  · simp at h

/-- One call keeps the invariant of the parent, as long as the first `N` records are rows
`1, ..., N` once the parent is signalled. -/
theorem step_read (N C : Nat) (w t : World) (x : Actor) (hread : ReadInv N w)
    (hfirst : w.par.latches.startRead ≠ 0 → FirstRows N w.shm.file)
    (hq : offsetKept N w x = true) (hk : chunkKept w x = true)
    (h : call N C w x = some t) : ReadInv N t := by
  cases x with
  | parent => exact step_read_parent N C w t hread hfirst hq h
  | child p =>
    cases p
    · exact step_read_childA N C w t hread hk h
    · exact step_read_childB N C w t hread hk h

theorem firstRows_append (N : Nat) (file rest : List Row) (h : FirstRows N file) :
    FirstRows N (file ++ rest) := by
  intro j hj
  have hj1 := h j hj
  have hlt : j < file.length := by
    by_contra hcon
    rw [List.getElem?_eq_none (by omega)] at hj1
    simp at hj1
  rw [List.getElem?_append_left hlt]
  exact hj1

theorem step_removed_parent (N C : Nat) (w t : World) (hinv : Removed N w)
    (hq : offsetKept N w .parent = true)
    (h : parentCall N C w = some t) : Removed N t := by
  obtain ⟨⟨file, pos⟩, ⟨s0, s1⟩, rem, ⟨apc, al, ac, ai⟩, ⟨bpc, bl, bc, bi⟩,
    ⟨ppc, pl, i, j, out⟩⟩ := w
  obtain ⟨j1, j2, j3⟩ := hinv
  simp only [] at j1 j2 j3
  subst j1
  simp only [offsetKept] at hq
  cases ppc <;> simp only [parentCall] at h
  · simp at h; subst h
    exact ⟨rfl, j2, j3⟩
  · simp at h; subst h
    exact ⟨rfl, j2, j3⟩
  · by_cases hi : i < N
    · by_cases hr : pl.startRead = 0
      · simp [hi, hr] at h; subst h
        exact ⟨rfl, j2, j3⟩
      · simp [hi, hr] at h; subst h
        simp [hi, hr] at hq
        refine ⟨rfl, j2, ?_⟩
        intro hpos
        rcases hpos with hpos | hpos <;> simp [hq] at hpos
    · simp [hi] at h; subst h
      exact ⟨rfl, j2, j3⟩
  · simp at hq
    by_cases hj : j < C
    · by_cases hb : N < i + 1
      · simp [hj, hb] at h; subst h
        exact ⟨rfl, j2, j3⟩
      · simp [hj, hb] at h; subst h
        refine ⟨rfl, ?_, ?_⟩
        · simp only []
          rw [readRowFromShm_file]
          exact j2
        · intro hpos
          rcases hpos with hpos | hpos <;> simp [hq] at hpos
    · simp [hj] at h; subst h
      exact ⟨rfl, j2, j3⟩
  · simp at h; subst h
    exact ⟨rfl, j2, j3⟩
  · simp at h

theorem step_removed_childA (N C : Nat) (w t : World) (hinv : Removed N w)
    (h : childCall N C .A w = some t) : Removed N t := by
  obtain ⟨⟨file, pos⟩, ⟨s0, s1⟩, rem, ⟨apc, al, ac, ai⟩, ⟨bpc, bl, bc, bi⟩,
    ⟨ppc, pl, i, j, out⟩⟩ := w
  obtain ⟨j1, j2, j3⟩ := hinv
  simp only [] at j1 j2 j3
  subst j1
  have j3b : positioned bpc = true → pos = file.length := fun hb => j3 (Or.inr hb)
  cases apc <;> simp only [childCall, World.child] at h
  · by_cases hw : al.startWrite = 0
    · simp [hw] at h; subst h
      exact ⟨rfl, j2, j3⟩
    · simp only [ne_eq, hw, not_false_eq_true, if_true] at h
      obtain ⟨v, ht⟩ := afterSemopCall_spec _ _ _ _ _ (lockOf_cases .A) h
      subst ht
      refine ⟨rfl, j2, ?_⟩
      simpa [World.setChild, World.child, positioned] using j3b
  · simp [World.setChild, lseekEnd] at h; subst h
    exact ⟨rfl, j2, fun _ => rfl⟩
  · simp [World.setChild] at h; subst h
    exact ⟨rfl, j2, fun _ => j3 (Or.inl rfl)⟩
  · have hpos := j3 (Or.inl rfl)
    simp only [] at hpos
    subst hpos
    by_cases hi : ai < C
    · by_cases hx : (N : Int) < ac + 1
      · simp [hi, hx, World.setChild] at h; subst h
        exact ⟨rfl, j2, fun _ => rfl⟩
      · simp only [hi, hx, if_true, if_false, gt_iff_lt] at h
        rw [writeRowToShm_end] at h
        simp only [World.setChild, Option.some.injEq] at h
        subst h
        exact ⟨rfl, firstRows_append N _ _ j2, fun _ => by simp⟩
    · simp [hi, World.setChild] at h; subst h
      exact ⟨rfl, j2, fun _ => rfl⟩
  · obtain ⟨v, ht⟩ := afterSemopCall_spec _ _ _ _ _ (unlockOf_cases .A) h
    subst ht
    refine ⟨rfl, j2, ?_⟩
    simpa [World.setChild, World.child, positioned] using j3b
  · obtain ⟨v, ht⟩ := afterSemopCall_spec _ _ _ _ _ (unlockOf_cases .A) h
    subst ht
    refine ⟨rfl, j2, ?_⟩
    simpa [World.setChild, World.child, positioned] using j3b
  · simp [World.setChild] at h; subst h
    refine ⟨rfl, j2, ?_⟩
    simpa [positioned] using j3b
  · simp [World.setChild] at h; subst h
    refine ⟨rfl, j2, ?_⟩
    simpa [positioned] using j3b
  · simp at h

theorem step_removed_childB (N C : Nat) (w t : World) (hinv : Removed N w)
    (h : childCall N C .B w = some t) : Removed N t := by
  obtain ⟨⟨file, pos⟩, ⟨s0, s1⟩, rem, ⟨apc, al, ac, ai⟩, ⟨bpc, bl, bc, bi⟩,
    ⟨ppc, pl, i, j, out⟩⟩ := w
  obtain ⟨j1, j2, j3⟩ := hinv
  simp only [] at j1 j2 j3
  subst j1
  have j3a : positioned apc = true → pos = file.length := fun ha => j3 (Or.inl ha)
  cases bpc <;> simp only [childCall, World.child] at h
  · by_cases hw : bl.startWrite = 0
    · simp [hw] at h; subst h
      exact ⟨rfl, j2, j3⟩
    · simp only [ne_eq, hw, not_false_eq_true, if_true] at h
      obtain ⟨v, ht⟩ := afterSemopCall_spec _ _ _ _ _ (lockOf_cases .B) h
      subst ht
      refine ⟨rfl, j2, ?_⟩
      simpa [World.setChild, World.child, positioned] using j3a
  · simp [World.setChild, lseekEnd] at h; subst h
    exact ⟨rfl, j2, fun _ => rfl⟩
  · simp [World.setChild] at h; subst h
    exact ⟨rfl, j2, fun _ => j3 (Or.inr rfl)⟩
  · have hpos := j3 (Or.inr rfl)
    simp only [] at hpos
    subst hpos
    by_cases hi : bi < C
    · by_cases hx : (N : Int) < bc + 1
      · simp [hi, hx, World.setChild] at h; subst h
        exact ⟨rfl, j2, fun _ => rfl⟩
      · simp only [hi, hx, if_true, if_false, gt_iff_lt] at h
        rw [writeRowToShm_end] at h
        simp only [World.setChild, Option.some.injEq] at h
        subst h
        exact ⟨rfl, firstRows_append N _ _ j2, fun _ => by simp⟩
    · simp [hi, World.setChild] at h; subst h
      exact ⟨rfl, j2, fun _ => rfl⟩
  · obtain ⟨v, ht⟩ := afterSemopCall_spec _ _ _ _ _ (unlockOf_cases .B) h
    subst ht
    refine ⟨rfl, j2, ?_⟩
    simpa [World.setChild, World.child, positioned] using j3a
  · obtain ⟨v, ht⟩ := afterSemopCall_spec _ _ _ _ _ (unlockOf_cases .B) h
    subst ht
    refine ⟨rfl, j2, ?_⟩
    simpa [World.setChild, World.child, positioned] using j3a
  · simp [World.setChild] at h; subst h
    refine ⟨rfl, j2, ?_⟩
    simpa [positioned] using j3a
  · simp [World.setChild] at h; subst h
    refine ⟨rfl, j2, ?_⟩
    simpa [positioned] using j3a
  · simp at h

/-- After `IPC_RMID`, one call keeps the first `N` records of the file. -/
theorem step_removed (N C : Nat) (w t : World) (x : Actor) (hinv : Removed N w)
    (hq : offsetKept N w x = true) (h : call N C w x = some t) : Removed N t := by
  cases x with
  | parent => exact step_removed_parent N C w t hinv hq h
  | child p =>
    cases p
    · exact step_removed_childA N C w t hinv h
    · exact step_removed_childB N C w t hinv h

theorem readable_start (N C : Nat) : Readable N C start :=
  ⟨Or.inl ⟨[], turnInv_start N C, fileInv_start True N C, rfl⟩, readInv_start N⟩

theorem step_readable (N C : Nat) (hC : 1 ≤ C) (w t : World) (x : Actor)
    (hinv : Readable N C w) (ha : turnsApart w x = true)
    (hq : offsetKept N w x = true) (hk : chunkKept w x = true)
    (h : call N C w x = some t) : Readable N C t := by
  obtain ⟨hst, hread⟩ := hinv
  rcases hst with ⟨log, ht, hf, hrem⟩ | hs | hr
  · have hfirst : w.par.latches.startRead ≠ 0 → FirstRows N w.shm.file := by
      intro hsr
      obtain ⟨_, _, _, _, h5, _⟩ := ht
      rw [hf.1]
      exact fileFrom_first N C hC log (h5 hsr) _
    have hread2 := step_read N C w t x hread hfirst hq hk h
    refine ⟨?_, hread2⟩
    have hl : cursorLive w x = true := by
      cases x with
      | parent => rfl
      | child p => simp [cursorLive, hrem]
    have hf2 := step_file True N C hC w t x log ht hf (Or.inl trivial) (fun _ => hq) h
    rcases step_turn N C hC w t x log ht ha hl h with ht2 | hs2
    · by_cases hrem2 : t.removed = false
      · exact Or.inl ⟨_, ht2, hf2, hrem2⟩
      · have hrem3 : t.removed = true := by simpa using hrem2
        right; right
        refine ⟨hrem3, ?_, hf2.2.2 trivial⟩
        by_cases hN : N = 0
        · subst hN
          intro j hj
          omega
        · have hsr := hread2.2.2.2.2.2.1 hrem3 (by omega)
          obtain ⟨_, _, _, _, h5, _⟩ := ht2
          rw [hf2.1]
          exact fileFrom_first N C hC _ (h5 hsr) _
    · exact Or.inr (Or.inl hs2)
  · have hfirst : w.par.latches.startRead ≠ 0 → FirstRows N w.shm.file := by
      intro hsr
      exact absurd hs.2.2.2.2.1 hsr
    exact ⟨Or.inr (Or.inl (step_stuck N C w t x hs h)), step_read N C w t x hread hfirst hq hk h⟩
  · exact ⟨Or.inr (Or.inr (step_removed N C w t x hr hq h)),
      step_read N C w t x hread (fun _ => hr.2.1) hq hk h⟩

/-- Along a run in which producer turns do not overlap and neither side moves the file offset
under the other, the invariant `Readable` holds. -/
theorem run_readable (N C : Nat) (hC : 1 ≤ C) :
    ∀ (sched : List Actor) (w t : World), Readable N C w →
      along turnsApart N C w sched = true →
      along (offsetKept N) N C w sched = true → along chunkKept N C w sched = true →
      run N C w sched = some t → Readable N C t := by
  intro sched
  induction sched with
  | nil =>
    intro w t hw _ _ _ h
    simp [run] at h; subst h
    exact hw
  | cons x xs ih =>
    intro w t hw ha hq hk h
    simp only [run] at h
    cases hx : call N C w x with
    | none => simp [hx] at h
    | some u =>
      rw [hx] at h
      simp only [along, hx, Bool.and_eq_true] at ha hq hk
      exact ih u t (step_readable N C hC w u x hw ha.1 hq.1 hk.1 hx) ha.2 hq.2 hk.2 h

/-! ## Properties of the program -/

/-- C1. For every `N` and every `C ≥ 1`: (a) when the parent stands at the `while` loop of
`executeParentProcess` with `i = 0`, nothing printed yet and `startRead` set, running it for
`2 * N + 1` steps or more makes it leave the loop having called `readRowFromShm` exactly `N`
times, in chunks of `C` with a last chunk of `N mod C` when that is not zero; (b) in every
execution of the three processes the parent has called `readRowFromShm` at most `N` times,
and exactly `N` times, in the same chunks, once it has left the loop; (c) with `N = 1000`
and `C = 75` the chunks are 13 chunks of 75 and one chunk of 25. -/
theorem parent_reads_exactly_total (N C : Nat) (hC : 1 ≤ C) :
    (∀ (s : Sys), s.par.pc = .loop → s.par.i = 0 → s.par.out = [] →
      s.par.latches.startRead ≠ 0 → ∀ n, 2 * N + 1 ≤ n →
        (runAlone N C .parent n s).par.pc = .returned ∧
        (runAlone N C .parent n s).par.out.flatten.length = N ∧
        (runAlone N C .parent n s).par.out.map List.length =
          List.replicate (N / C) C ++ (if N % C = 0 then [] else [N % C])) ∧
    (∀ (sched : List Actor) (s : Sys), exec N C init sched = some s →
      s.par.out.flatten.length ≤ N ∧
      (s.par.pc = .returned → s.par.out.flatten.length = N ∧
        s.par.out.map List.length =
          List.replicate (N / C) C ++ (if N % C = 0 then [] else [N % C]))) ∧
    (N = NUM_ROW_ALL → C = NUM_ROW_PART →
      List.replicate (N / C) C ++ (if N % C = 0 then [] else [N % C]) =
        List.replicate 13 75 ++ [25]) := by
  refine ⟨?_, ?_, ?_⟩
  · intro s hpc hi hout hr n hn
    obtain ⟨g1, g2, g3⟩ := runAlone_parent_loop N C hC N s hpc hr (by omega) n hn
    rw [hi, hout] at g2 g3
    simp only [List.flatten_nil, List.length_nil, Nat.zero_add, Nat.sub_zero, List.map_nil,
      List.nil_append] at g2 g3
    exact ⟨g1, g2, g3⟩
  · intro sched s h
    exact parCount_total N C hC s (reach_parCount N C hC sched init s (parCount_init N C) h)
  · intro hN hCC
    rw [hN, hCC]
    decide

/-- C1 at the compiled-in constants, from a state in which the parent stands at its loop. -/
theorem parent_reads_exactly_total_witness :
    (1 ≤ NUM_ROW_PART) ∧
    (runAlone NUM_ROW_ALL NUM_ROW_PART .parent 2001
      ⟨⟨turnRows 1 0 1000, 0⟩, ⟨975, 0⟩, ⟨.returned, ⟨1, 0⟩⟩, ⟨.poll, ⟨1, 0⟩⟩,
        ⟨.loop, ⟨0, 1⟩, 0, []⟩⟩).par.out.map List.length = List.replicate 13 75 ++ [25] :=
  ⟨by decide,
    ((parent_reads_exactly_total NUM_ROW_ALL NUM_ROW_PART (by decide)).1
      ⟨⟨turnRows 1 0 1000, 0⟩, ⟨975, 0⟩, ⟨.returned, ⟨1, 0⟩⟩, ⟨.poll, ⟨1, 0⟩⟩,
        ⟨.loop, ⟨0, 1⟩, 0, []⟩⟩ rfl rfl rfl (by decide) 2001 (by decide)).2.2.trans
      ((parent_reads_exactly_total NUM_ROW_ALL NUM_ROW_PART (by decide)).2.2 rfl rfl)⟩

/-- C2, as stated, fails.  Turn by turn: (a) with `N = 3`, `C = 2`, the first child writes
rows 1, 2, then row 3, and signals the parent; the parent does its `lseek` to offset 0; the
second child, already past its `semop(lock)`, takes its turn (`lseek` to the end of the
file, row 3 once more); the parent then reads at the end of the file and prints two buffers
that hold no record, then row 3, and leaves its loop.  (b) With the compiled-in constants, in
the same race after 13 full turns, the whole first chunk of the parent is 75 buffers that
hold no record.  Call by call: (c) the run of (a), in which the `lseek(SEEK_END)` of the
second child falls inside the first chunk of the parent.  (d) With `N = 5`, `C = 2`, the
first child writes rows 1 .. 5 and signals; the second child does its `lseek(SEEK_END)`; the
parent does its `lseek` to offset 0 and reads a whole chunk, rows 1 and 2; only then the
second child reads the row counter 4 and writes row 5, which lands on the third record; the
parent goes on to print rows 5, 4, 5.  In all four runs no two producer turns overlap and the
parent reads only after `SIGUSR1`; in (d), moreover, the row counter is read from the
existing semaphore set and no child moves the offset while the parent is inside a chunk. -/
theorem emitted_rows_counterexample :
    (exec 3 2 init [.parent, .parent, .child .B, .child .A, .child .A, .child .A, .child .A,
        .child .A, .child .A, .child .A, .parent, .child .B, .parent, .parent, .parent,
        .parent]).map (fun s => (s.par.pc, s.par.out)) =
      some (.returned, [[none, none], [some ⟨3, 1⟩]]) ∧
    (exec NUM_ROW_ALL NUM_ROW_PART init ((([.parent, .parent] ++
          ((List.replicate 13 [Producer.B, Producer.B, Producer.B]).flatten).map Actor.child) ++
        [.child .B, .child .A, .child .A, .child .A, .child .A]) ++
        [.parent, .child .B, .parent])).map (fun s => (s.par.i, s.par.out)) =
      some (75, [List.replicate 75 none]) ∧
    ((run 3 2 start ([.parent, .parent, .child .B, .child .A] ++
          List.replicate 13 (.child .A) ++ [.parent] ++ List.replicate 4 (.child .B) ++
          List.replicate 7 .parent)).map (fun w => (w.par.pc, w.par.out)) =
        some (.returned, [none, none, some ⟨3, 1⟩]) ∧
      along turnsApart 3 2 start ([.parent, .parent, .child .B, .child .A] ++
          List.replicate 13 (.child .A) ++ [.parent] ++ List.replicate 4 (.child .B) ++
          List.replicate 7 .parent) = true) ∧
    ((run 5 2 start ([.parent, .parent, .child .B, .child .A] ++
          List.replicate 20 (.child .A) ++
          [.child .B, .parent, .parent, .parent, .parent, .child .B, .child .B, .child .B] ++
          List.replicate 8 .parent)).map
        (fun w => (w.par.pc, w.par.out.map (Option.map Row.rowIndex))) =
        some (.returned, [some 1, some 2, some 5, some 4, some 5]) ∧
      along turnsApart 5 2 start ([.parent, .parent, .child .B, .child .A] ++
          List.replicate 20 (.child .A) ++
          [.child .B, .parent, .parent, .parent, .parent, .child .B, .child .B, .child .B] ++
          List.replicate 8 .parent) = true ∧
      along cursorLive 5 2 start ([.parent, .parent, .child .B, .child .A] ++
          List.replicate 20 (.child .A) ++
          [.child .B, .parent, .parent, .parent, .parent, .child .B, .child .B, .child .B] ++
          List.replicate 8 .parent) = true ∧
      along chunkKept 5 2 start ([.parent, .parent, .child .B, .child .A] ++
          List.replicate 20 (.child .A) ++
          [.child .B, .parent, .parent, .parent, .parent, .child .B, .child .B, .child .B] ++
          List.replicate 8 .parent) = true) := by
  refine ⟨by decide, ?_, by decide, by decide⟩
  rw [exec_race NUM_ROW_ALL NUM_ROW_PART 13 (by decide) (by decide) (by decide) (by decide)
    (by decide)]
  simp [NUM_ROW_PART]

/-- C2, amended. For every `N` and every `C ≥ 1`, in every execution, call by call, in which
producer turns do not overlap (`turnsApart`), the parent does no `lseek` and no
`readRowFromShm` while a child is between its `lseek(SEEK_END)` and the end of its `for` loop
(`offsetKept`), and no child does its `lseek(SEEK_END)` while the parent is inside its inner
`for` loop (`chunkKept`): everything the parent has printed is a record with row number in
`[1, N]`, and once the parent has left its loop the printed row numbers are exactly
`1, ..., N`, each once (as a multiset, and in fact in increasing order).  The parent reads
only after `SIGUSR1` in every execution. -/
theorem emitted_rows_exactly_once (N C : Nat) (hC : 1 ≤ C) (sched : List Actor) (w : World)
    (h : run N C start sched = some w)
    (ha : along turnsApart N C start sched = true)
    (hq : along (offsetKept N) N C start sched = true)
    (hk : along chunkKept N C start sched = true) :
    (∀ e ∈ w.par.out, ∃ r : Row, e = some r ∧ 1 ≤ r.rowIndex ∧ r.rowIndex ≤ N) ∧
    (w.par.pc = .returned ∨ w.par.pc = .exited →
      (↑(w.par.out.map (Option.map Row.rowIndex)) : Multiset (Option Nat)) =
          ↑((List.range' 1 N).map some) ∧
        w.par.out.map (Option.map Row.rowIndex) = (List.range' 1 N).map some) := by
  obtain ⟨_, _, r2, r3, _⟩ :=
    run_readable N C hC sched start w (readable_start N C) ha hq hk h
  refine ⟨?_, ?_⟩
  · intro e he
    have hmem : Option.map Row.rowIndex e ∈ (List.range' 1 (min w.par.i N)).map some := by
      rw [← r2]; exact List.mem_map_of_mem _ he
    simp only [List.mem_map, List.mem_range'_1] at hmem
    obtain ⟨k, ⟨hk1, hk2⟩, hk⟩ := hmem
    cases e with
    | none => simp at hk
    | some r =>
      simp only [Option.map_some', Option.some.injEq] at hk
      exact ⟨r, rfl, by omega, by omega⟩
  · intro hret
    have hmin : min w.par.i N = N := by have := r3 hret; omega
    rw [hmin] at r2
    exact ⟨by rw [r2], r2⟩

/-- C2 (amended) on a run with `N = 3`, `C = 2` in which all three processes return: the
first child writes rows 1, 2, then row 3; the second child writes row 3 once more; then the
parent reads. -/
theorem emitted_rows_exactly_once_witness :
    (1 ≤ 2) ∧
    run 3 2 start ([.parent, .parent, .child .B, .child .A] ++ List.replicate 13 (.child .A) ++
        List.replicate 6 (.child .B) ++ List.replicate 9 .parent) =
      some ⟨⟨[⟨1, 1⟩, ⟨2, 1⟩, ⟨3, 1⟩, ⟨3, 2⟩], 3⟩, ⟨2, 0⟩, true, ⟨.returned, ⟨1, 0⟩, 4, 1⟩,
        ⟨.returned, ⟨1, 0⟩, 4, 1⟩,
        ⟨.exited, ⟨0, 1⟩, 4, 1, [some ⟨1, 1⟩, some ⟨2, 1⟩, some ⟨3, 1⟩]⟩⟩ ∧
    [some (⟨1, 1⟩ : Row), some ⟨2, 1⟩, some ⟨3, 1⟩].map (Option.map Row.rowIndex) =
      (List.range' 1 3).map some :=
  ⟨by decide, by decide,
    ((emitted_rows_exactly_once 3 2 (by decide)
      ([.parent, .parent, .child .B, .child .A] ++ List.replicate 13 (.child .A) ++
        List.replicate 6 (.child .B) ++ List.replicate 9 .parent)
      ⟨⟨[⟨1, 1⟩, ⟨2, 1⟩, ⟨3, 1⟩, ⟨3, 2⟩], 3⟩, ⟨2, 0⟩, true, ⟨.returned, ⟨1, 0⟩, 4, 1⟩,
        ⟨.returned, ⟨1, 0⟩, 4, 1⟩,
        ⟨.exited, ⟨0, 1⟩, 4, 1, [some ⟨1, 1⟩, some ⟨2, 1⟩, some ⟨3, 1⟩]⟩⟩
      (by decide) (by decide) (by decide) (by decide)).2 (Or.inr rfl)).2⟩

/-- C3. In every state that the three processes can reach from the initial state of `main`,
for every `N` and `C`, the value of semaphore slot 1 (the token) is 0 or 1. -/
theorem token_zero_or_one (N C : Nat) (sched : List Actor) (s : Sys)
    (h : exec N C init sched = some s) : s.sem.sem1 = 0 ∨ s.sem.sem1 = 1 := by
  have hinv := reach_tokInv N C sched s h
  unfold TokInv at hinv
  split at hinv <;> split at hinv <;> omega

/-- C3 on the run in which the second child has done its `semop(lock)`. -/
theorem token_zero_or_one_witness :
    exec NUM_ROW_ALL NUM_ROW_PART init [.parent, .parent, .child .B] =
        some ⟨⟨[], 0⟩, ⟨0, 1⟩, ⟨.poll, ⟨1, 0⟩⟩, ⟨.locked, ⟨1, 0⟩⟩, ⟨.loop, ⟨0, 0⟩, 0, []⟩⟩ ∧
      ((1 : Nat) = 0 ∨ (1 : Nat) = 1) :=
  ⟨by decide, token_zero_or_one NUM_ROW_ALL NUM_ROW_PART [.parent, .parent, .child .B]
    ⟨⟨[], 0⟩, ⟨0, 1⟩, ⟨.poll, ⟨1, 0⟩⟩, ⟨.locked, ⟨1, 0⟩⟩, ⟨.loop, ⟨0, 0⟩, 0, []⟩⟩ (by decide)⟩

/-- C4, as stated, fails: with the compiled-in constants, after the second child has done its
`semop(lock)` and the first child its `semop(lock)` and one full turn, the first child is at
its `semop(unlock)` and the token is 1 when that call completes. -/
theorem token_after_unlock_counterexample :
    (exec NUM_ROW_ALL NUM_ROW_PART init
        [.parent, .parent, .child .B, .child .A, .child .A]).map
      (fun s => ((s.child .A).pc,
        (stepChild NUM_ROW_ALL NUM_ROW_PART .A s).map fun t => t.sem.sem1)) =
      some (.unlock, some 1) := by
  decide

/-- C4, amended. In every reachable state in which the second child (`B`, whose unlock is
`writeP`) is about to do its `semop(unlock)` and the call completes, the token is 0
afterwards. -/
theorem token_after_unlock (N C : Nat) (sched : List Actor) (s t : Sys)
    (h : exec N C init sched = some s)
    (hpc : s.b.pc = .unlock ∨ s.b.pc = .unlockExit)
    (ht : stepChild N C .B s = some t) :
    t.sem.sem1 = 0 := by
  have hinv := reach_tokInv N C sched s h
  obtain ⟨shm, ⟨s0, s1⟩, ⟨apc, al⟩, ⟨bpc, bl⟩, ⟨ppc, pl, i, out⟩⟩ := s
  simp only [] at hpc
  rcases hpc with hpc | hpc <;> subst hpc <;>
    simp [stepChild, Sys.child, Sys.setChild, afterSemop, semop, unlockOf, writeP,
      SemSet.getval, SemSet.store] at ht <;>
    (by_cases h1 : 1 ≤ s1
     · simp [h1] at ht; subst ht
       cases apc <;> simp_all [TokInv, inRegion]
     · simp [h1] at ht)

/-- C4 (amended) on the run in which the second child does its `semop(unlock)` after one
turn. -/
theorem token_after_unlock_witness :
    exec 3 2 init [.parent, .parent, .child .B, .child .B] =
      some ⟨⟨[⟨1, 2⟩, ⟨2, 2⟩], 2⟩, ⟨2, 1⟩, ⟨.poll, ⟨1, 0⟩⟩, ⟨.unlock, ⟨1, 0⟩⟩,
        ⟨.loop, ⟨0, 0⟩, 0, []⟩⟩ ∧
    stepChild 3 2 .B ⟨⟨[⟨1, 2⟩, ⟨2, 2⟩], 2⟩, ⟨2, 1⟩, ⟨.poll, ⟨1, 0⟩⟩, ⟨.unlock, ⟨1, 0⟩⟩,
        ⟨.loop, ⟨0, 0⟩, 0, []⟩⟩ =
      some ⟨⟨[⟨1, 2⟩, ⟨2, 2⟩], 2⟩, ⟨2, 0⟩, ⟨.poll, ⟨1, 0⟩⟩, ⟨.poll, ⟨1, 0⟩⟩,
        ⟨.loop, ⟨0, 0⟩, 0, []⟩⟩ ∧
    (⟨2, 0⟩ : SemSet).sem1 = 0 :=
  ⟨by decide, by decide,
    token_after_unlock 3 2 [.parent, .parent, .child .B, .child .B]
      ⟨⟨[⟨1, 2⟩, ⟨2, 2⟩], 2⟩, ⟨2, 1⟩, ⟨.poll, ⟨1, 0⟩⟩, ⟨.unlock, ⟨1, 0⟩⟩, ⟨.loop, ⟨0, 0⟩, 0, []⟩⟩
      ⟨⟨[⟨1, 2⟩, ⟨2, 2⟩], 2⟩, ⟨2, 0⟩, ⟨.poll, ⟨1, 0⟩⟩, ⟨.poll, ⟨1, 0⟩⟩, ⟨.loop, ⟨0, 0⟩, 0, []⟩⟩
      (by decide) (Or.inl rfl) (by decide)⟩

/-- C5, failing run. With the compiled-in constants, after the parent has sent both
`SIGUSR2` signals, the second child has done its `semop(lock)` and then the first child its
`semop(lock)`, both children are between their lock and their unlock. -/
theorem both_in_region :
    (exec NUM_ROW_ALL NUM_ROW_PART init [.parent, .parent, .child .B, .child .A]).map
      (fun s => (inRegion (s.child .A).pc, inRegion (s.child .B).pc, s.sem.sem1)) =
      some (true, true, 0) := by
  decide

/-- C6. For every `N`, `C` and row counter value `c` with `c ≤ N` and `N - c < C`: a child
that stands before its `semop(lock)` with `startWrite` set (and, for the first child, a token
to take) and then runs alone locks, writes exactly the `N - c` records with row numbers
`c + 1, ..., N` in increasing order at the end of the file and nothing else, none of them
with a row number above `N`, then does its `semop(unlock)`, then sends `SIGUSR1` to the
parent, then has returned. -/
theorem last_turn_writes_remaining (N C c : Nat) (p : Producer) (s : Sys)
    (hpc : (s.child p).pc = .poll) (hw : (s.child p).latches.startWrite ≠ 0)
    (htok : p = .A → 1 ≤ s.sem.sem1) (hc : s.sem.sem0 = c) (hcN : c ≤ N) (hlast : N - c < C) :
    ∃ s1 s2 s3 s4 : Sys,
      stepChild N C p s = some s1 ∧ (s1.child p).pc = .locked ∧ s1.shm = s.shm ∧
        s1.sem.sem0 = c ∧
      stepChild N C p s1 = some s2 ∧ (s2.child p).pc = .unlockExit ∧
        s2.shm.file = s.shm.file ++ turnRows (getpid p) c (N - c) ∧ s2.sem = s1.sem ∧
        s2.par = s.par ∧
      stepChild N C p s2 = some s3 ∧ (s3.child p).pc = .kill ∧ s3.shm = s2.shm ∧
        s3.sem = s.sem ∧ s3.par = s.par ∧
      stepChild N C p s3 = some s4 ∧ (s4.child p).pc = .returned ∧ s4.shm = s2.shm ∧
        s4.sem = s.sem ∧ s4.par.latches = sigHandler SIGUSR1 s.par.latches ∧
        s4.par.latches.startRead = 1 ∧
      stepChild N C p s4 = none ∧
      (turnRows (getpid p) c (N - c)).map Row.rowIndex = List.range' (c + 1) (N - c) ∧
      (turnRows (getpid p) c (N - c)).length = N - c ∧
      ∀ r ∈ turnRows (getpid p) c (N - c), c < r.rowIndex ∧ r.rowIndex ≤ N := by
  subst hc
  have e1 := stepChild_lock N C p s hpc hw htok
  generalize hs1 : ({ s with sem := ⟨s.sem.sem0,
      if p = Producer.A then s.sem.sem1 - 1 else s.sem.sem1 + 1⟩ }.setChild p { s.child p with pc := .locked }) = s1 at e1
  have a1 : (s1.child p).pc = .locked := by subst hs1; simp
  have a2 : s1.shm = s.shm := by subst hs1; simp
  have a3 : s1.sem.sem0 = s.sem.sem0 := by subst hs1; simp
  have a4 : s1.par = s.par := by subst hs1; simp
  have a5 : s1.sem.sem1 = (if p = Producer.A then s.sem.sem1 - 1 else s.sem.sem1 + 1) := by
    subst hs1; simp
  have e2 := stepChild_last_turn N C p s1 a1 (by omega) (by omega)
  generalize hs2 : ({ s1 with shm := ⟨s1.shm.file ++
        turnRows (getpid p) s1.sem.sem0 (N - s1.sem.sem0), s1.shm.file.length + (N - s1.sem.sem0)⟩
      }.setChild p { s1.child p with pc := .unlockExit }) = s2 at e2
  have b1 : (s2.child p).pc = .unlockExit := by subst hs2; simp
  have b2 : s2.shm.file = s.shm.file ++ turnRows (getpid p) s.sem.sem0 (N - s.sem.sem0) := by
    subst hs2; simp [a2, a3]
  have b3 : s2.sem = s1.sem := by subst hs2; simp
  have b4 : s2.par = s.par := by subst hs2; simp [a4]
  have e3 := stepChild_unlock N C p s2 .kill (Or.inr ⟨b1, rfl⟩)
    (by intro hp; subst hp; rw [b3, a5]; simp)
  generalize hs3 : ({ s2 with sem := ⟨s2.sem.sem0,
      if p = Producer.A then s2.sem.sem1 + 1 else s2.sem.sem1 - 1⟩ }.setChild p { s2.child p with pc := .kill }) = s3 at e3
  have c1 : (s3.child p).pc = .kill := by subst hs3; simp
  have c2 : s3.shm = s2.shm := by subst hs3; simp
  have c3 : s3.sem = s.sem := by
    subst hs3
    have hA := htok
    cases p
    · have h1 := hA rfl
      simp only [setChild_sem, b3, a5, a3, if_true]
      cases hsem : s.sem
      simp only [hsem] at h1
      simp only [SemSet.mk.injEq, true_and]
      omega
    · simp only [setChild_sem, b3, a5, a3]
      cases hsem : s.sem
      simp
  have c4 : s3.par = s.par := by subst hs3; simp [b4]
  have e4 := stepChild_kill N C p s3 c1
  generalize hs4 : ({ s3 with
      par := { s3.par with latches := sigHandler SIGUSR1 s3.par.latches } }.setChild p
        { s3.child p with pc := .returned }) = s4 at e4
  have d1 : (s4.child p).pc = .returned := by subst hs4; simp
  have d2 : s4.shm = s2.shm := by subst hs4; simp [c2]
  have d3 : s4.sem = s.sem := by subst hs4; simp [c3]
  have d4 : s4.par.latches = sigHandler SIGUSR1 s.par.latches := by subst hs4; simp [c4]
  refine ⟨s1, s2, s3, s4, e1, a1, a2, a3, e2, b1, b2, b3, b4, e3, c1, c2, c3, c4, e4, d1, d2,
    d3, d4, ?_, stepChild_returned N C p s4 d1, turnRows_index _ _ _, by simp [turnRows], ?_⟩
  · rw [d4]; simp [sigHandler, SIGUSR1]
  · intro r hr
    simp only [turnRows, List.mem_map, List.mem_range'_1] at hr
    obtain ⟨k, hk, rfl⟩ := hr
    simp only []
    omega

/-- C6 at the compiled-in constants for the turn that reads the row counter 975. -/
theorem last_turn_writes_remaining_witness :
    ((975 : Nat) ≤ NUM_ROW_ALL) ∧ (NUM_ROW_ALL - 975 < NUM_ROW_PART) ∧
    ∃ s1 s2 s3 s4 : Sys,
      stepChild NUM_ROW_ALL NUM_ROW_PART .B
        ⟨⟨turnRows 1 0 975, 0⟩, ⟨975, 0⟩, ⟨.poll, ⟨1, 0⟩⟩, ⟨.poll, ⟨1, 0⟩⟩,
          ⟨.loop, ⟨0, 0⟩, 0, []⟩⟩ = some s1 ∧
      stepChild NUM_ROW_ALL NUM_ROW_PART .B s1 = some s2 ∧
      s2.shm.file = turnRows 1 0 975 ++ turnRows (getpid .B) 975 (NUM_ROW_ALL - 975) ∧
      stepChild NUM_ROW_ALL NUM_ROW_PART .B s2 = some s3 ∧
      stepChild NUM_ROW_ALL NUM_ROW_PART .B s3 = some s4 ∧
      s4.par.latches.startRead = 1 ∧
      stepChild NUM_ROW_ALL NUM_ROW_PART .B s4 = none := by
  refine ⟨by decide, by decide, ?_⟩
  obtain ⟨s1, s2, s3, s4, e1, _, _, _, e2, _, hfile, _, _, e3, _, _, _, _, e4, _, _, _, _, hr,
      e5, _⟩ :=
    last_turn_writes_remaining NUM_ROW_ALL NUM_ROW_PART 975 .B
      ⟨⟨turnRows 1 0 975, 0⟩, ⟨975, 0⟩, ⟨.poll, ⟨1, 0⟩⟩, ⟨.poll, ⟨1, 0⟩⟩,
        ⟨.loop, ⟨0, 0⟩, 0, []⟩⟩ rfl (by decide) (by intro hp; cases hp) rfl (by decide)
      (by decide)
  exact ⟨s1, s2, s3, s4, e1, e2, hfile, e3, e4, hr, e5⟩

/-- C7, as stated, fails.  With `N = 0` and `C = 2`, call by call: the parent sends both
`SIGUSR2` signals, finds `i < NUM_ROW_ALL` false at once, returns and removes the semaphore
set; after that every `semop` of a child fails, `GETVAL` gives -1, so the second child writes
a record with row number 0 before it sees `curRow > NUM_ROW_ALL`, and then the first child
does the same.  Both children have returned, their turns did not overlap, and the file holds
two records instead of none. -/
theorem exact_multiple_counterexample :
    (run 0 2 start ([.parent, .parent, .parent, .parent] ++ List.replicate 7 (.child .B) ++
        List.replicate 7 (.child .A))).map (fun w => (w.a.pc, w.b.pc, w.shm.file)) =
      some (.returned, .returned, [⟨0, 2⟩, ⟨0, 1⟩]) ∧
    along turnsApart 0 2 start ([.parent, .parent, .parent, .parent] ++
        List.replicate 7 (.child .B) ++ List.replicate 7 (.child .A)) = true ∧
    (2 ∣ 0) := by
  decide

/-- C7, amended. For every `C ≥ 1` and every `N` that is a multiple of `C`, in every
execution, call by call, in which producer turns do not overlap (`turnsApart`) and every turn
reads the row counter while the semaphore set exists (`cursorLive`): once both children have
seen `curRow > NUM_ROW_ALL` (in particular once both have returned) the file holds exactly
`N` records, with row numbers `1, ..., N` and no row number twice; and when `N = 2 * C` and
consecutive turns are completed by different children, then as soon as a child has seen
`curRow > NUM_ROW_ALL` the first three turns were taken by `p`, `q`, `p` with `p ≠ q` and the
file is one full chunk of `C` rows by `p` followed by one full chunk of `C` rows by `q`. -/
theorem exact_multiple_no_repeats (C : Nat) (hC : 1 ≤ C) (N : Nat) (hN : C ∣ N)
    (sched : List Actor) (w : World) (h : run N C start sched = some w)
    (ha : along turnsApart N C start sched = true)
    (hl : along cursorLive N C start sched = true) :
    (finished w.a.pc = true → finished w.b.pc = true →
      w.shm.file.map Row.rowIndex = List.range' 1 N ∧ w.shm.file.length = N ∧
        (w.shm.file.map Row.rowIndex).Nodup) ∧
    (N = 2 * C → List.Chain' (fun p q => p ≠ q) (turnLog N C start sched) →
      1 ≤ finishedCount w →
        ∃ p q : Producer, p ≠ q ∧ (turnLog N C start sched).take 3 = [p, q, p] ∧
          w.shm.file = turnRows (getpid p) 0 C ++ turnRows (getpid q) C C) := by
  have hdiv : C * (N / C) = N := Nat.mul_div_cancel' hN
  have hmod : N % C = 0 := Nat.mod_eq_zero_of_dvd hN
  have hrun := run_good False N C hC (Or.inr hN) sched start w [] (turnInv_start N C)
    (fileInv_start False N C) ha hl (fun hG => hG.elim) h
  rw [List.nil_append] at hrun
  rcases hrun with ⟨⟨t1, t2, t3, t4, _⟩, f1, _⟩ | hs
  · refine ⟨?_, ?_⟩
    · intro hfa hfb
      have hpa : w.a.pc ≠ .iter := by intro hh; rw [hh] at hfa; simp [finished] at hfa
      have hpb : w.b.pc ≠ .iter := by intro hh; rw [hh] at hfb; simp [finished] at hfb
      have hidx : w.shm.file.map Row.rowIndex = List.range' 1 N := by
        rw [f1]
        simp only [partRows, hpa, hpb, if_false, List.append_nil]
        rw [fileFrom_index N C hC, hmod]
        simp only [finishedCount, hfa, hfb, if_true] at t2
        have hmin : min (turnLog N C start sched).length (N / C) = N / C := by omega
        rw [hmin, hdiv]
        simp
      refine ⟨hidx, ?_, ?_⟩
      · have := congrArg List.length hidx
        simpa using this
      · rw [hidx]; exact List.nodup_range' 1 N
    · intro hN2 hchain hex
      subst hN2
      have hq : 2 * C / C = 2 := Nat.mul_div_cancel 2 (by omega)
      rw [hq] at t1 t2
      have hpart : partRows w = [] := by
        have hlen : 2 < (turnLog (2 * C) C start sched).length := by omega
        have hmin : min (turnLog (2 * C) C start sched).length 2 = 2 := by omega
        rw [hmin] at t1
        simp only [partRows]
        by_cases h1 : w.a.pc = .iter
        · obtain ⟨_, _, g3, g4⟩ := t3 h1
          have h0 : w.a.i = 0 := by omega
          simp [h1, g4, h0, turnRows]
        · by_cases h2 : w.b.pc = .iter
          · obtain ⟨_, _, g3⟩ := t4 h2
            have h0 : w.b.i = 0 := by omega
            simp [h1, h2, h0, turnRows]
          · simp [h1, h2]
      rw [hpart, List.append_nil] at f1
      generalize turnLog (2 * C) C start sched = log at f1 t2 hchain
      match log, f1, t2, hchain with
      | [], _, t2, _ => simp at t2; omega
      | [_], _, t2, _ => simp at t2; omega
      | [_, _], _, t2, _ => simp at t2; omega
      | p :: q :: r :: rest, f1, _, hchain =>
        simp only [List.chain'_cons] at hchain
        obtain ⟨hpq, hqr, _⟩ := hchain
        have hr : r = p := by cases p <;> cases q <;> cases r <;> simp_all
        subst hr
        refine ⟨r, q, hpq, rfl, ?_⟩
        rw [f1]
        simp only [fileFrom, hq]
        rw [fileFrom_done (2 * C) C (by rw [hq, Nat.mul_comm]) rest 3 (by omega)]
        have e1 : min 2 2 = 2 := rfl
        have e0 : min 0 2 = 0 := rfl
        have e3 : min (0 + 1) 2 = 1 := rfl
        have e4 : min (0 + 1 + 1) 2 = 2 := rfl
        have m1 : min C (2 * C - C * 0) = C := by simp; omega
        have m2 : min C (2 * C - C * 1) = C := by simp; omega
        have m3 : min C (2 * C - C * 2) = 0 := by
          rw [Nat.mul_comm C 2, Nat.sub_self, Nat.min_zero]
        rw [e0, e3, e4, m1, m2, m3, turnRows_zero]
        simp
  · obtain ⟨_, _, k3, _⟩ := hs
    refine ⟨?_, ?_⟩
    · intro hfa _
      simp [finishedCount, hfa] at k3
    · intro _ _ hex
      omega

set_option maxRecDepth 100000 in
/-- C7 (amended) on the run with `N = 150`, `C = 75` in which the children take turns
alternately: both lock, the first child writes rows 1 .. 75, the second rows 76 .. 150, both
unlock and lock again, and each sees the limit in its next turn. -/
theorem exact_multiple_no_repeats_witness :
    (1 ≤ 75) ∧ (75 ∣ 150) ∧
    run 150 75 start ([.parent, .parent, .child .B, .child .A] ++
        List.replicate 79 (.child .A) ++ List.replicate 79 (.child .B) ++ [.child .B] ++
        List.replicate 6 (.child .A) ++ List.replicate 5 (.child .B)) =
      some ⟨⟨turnRows 1 0 75 ++ turnRows 2 75 75, 150⟩, ⟨150, 0⟩, false,
        ⟨.returned, ⟨1, 0⟩, 151, 0⟩, ⟨.returned, ⟨1, 0⟩, 151, 0⟩,
        ⟨.loop, ⟨0, 1⟩, 0, 0, []⟩⟩ ∧
    List.Chain' (fun p q => p ≠ q) (turnLog 150 75 start ([.parent, .parent, .child .B,
        .child .A] ++ List.replicate 79 (.child .A) ++ List.replicate 79 (.child .B) ++
        [.child .B] ++ List.replicate 6 (.child .A) ++ List.replicate 5 (.child .B))) ∧
    (turnRows 1 0 75 ++ turnRows 2 75 75).map Row.rowIndex = List.range' 1 150 ∧
    ∃ p q : Producer, p ≠ q ∧
      turnRows 1 0 75 ++ turnRows 2 75 75 =
        turnRows (getpid p) 0 75 ++ turnRows (getpid q) 75 75 := by
  have hrun : run 150 75 start ([.parent, .parent, .child .B, .child .A] ++
        List.replicate 79 (.child .A) ++ List.replicate 79 (.child .B) ++ [.child .B] ++
        List.replicate 6 (.child .A) ++ List.replicate 5 (.child .B)) =
      some ⟨⟨turnRows 1 0 75 ++ turnRows 2 75 75, 150⟩, ⟨150, 0⟩, false,
        ⟨.returned, ⟨1, 0⟩, 151, 0⟩, ⟨.returned, ⟨1, 0⟩, 151, 0⟩,
        ⟨.loop, ⟨0, 1⟩, 0, 0, []⟩⟩ := by decide
  have hlog : turnLog 150 75 start ([.parent, .parent, .child .B,
        .child .A] ++ List.replicate 79 (.child .A) ++ List.replicate 79 (.child .B) ++
        [.child .B] ++ List.replicate 6 (.child .A) ++ List.replicate 5 (.child .B)) =
      [.A, .B, .A, .B] := by decide
  have hchain : List.Chain' (fun p q => p ≠ q) (turnLog 150 75 start ([.parent, .parent,
        .child .B, .child .A] ++ List.replicate 79 (.child .A) ++
        List.replicate 79 (.child .B) ++ [.child .B] ++ List.replicate 6 (.child .A) ++
        List.replicate 5 (.child .B))) := by
    rw [hlog]
    simp
  have key := exact_multiple_no_repeats 75 (by decide) 150 (by decide) _ _ hrun (by decide)
    (by decide)
  obtain ⟨p, q, hpq, _, hfile⟩ := key.2 rfl hchain (by decide)
  exact ⟨by decide, by decide, hrun, hchain, (key.1 rfl rfl).1, p, q, hpq, hfile⟩

/-- C8, failing run. With the compiled-in constants: the parent sends both `SIGUSR2`
signals, the second child takes 13 full turns (rows 1 .. 975, row counter 975), locks again
and takes its 14th turn, which writes rows 976 .. 1000 and ends on the exit path.  Afterwards
the file holds 1000 records while the row counter (semaphore slot 0) is still 975. -/
theorem row_counter_behind_after_last_turn :
    (exec NUM_ROW_ALL NUM_ROW_PART init (([.parent, .parent] ++
          ((List.replicate 13 [Producer.B, Producer.B, Producer.B]).flatten).map Actor.child) ++
        [.child .B, .child .B])).map
      (fun t => (t.sem.sem0, t.shm.file.length, (t.child .B).pc)) =
      some (975, 1000, .unlockExit) := by
  rw [exec_soloB_last NUM_ROW_ALL NUM_ROW_PART 13 (by decide) (by decide) (by decide)]
  simp [NUM_ROW_ALL, NUM_ROW_PART, Sys.child]

/-- C10, as stated, fails, call by call.  (a) With `N = 3`, `C = 2`: the first child writes
rows 1, 2, then row 3, and signals; the second child does its `lseek(SEEK_END)`; the parent
does its `lseek` to offset 0 and reads rows 1 and 2; then the second child reads the row
counter 2 and writes row 3 at the offset the parent has left, over the third record.  Both
children have taken their last turn and the file holds 3 records, not 4.  (b) With `N = 1`,
`C = 3`: the first child writes row 1, signals, returns and removes the semaphore set; the
`GETVAL` of the second child then gives -1 and it writes rows 0 and 1.  Both children have
taken their last turn and the file holds 3 records, one of them with row number 0, not 2.
In both runs no two producer turns overlap. -/
theorem tail_rows_counterexample :
    ((run 3 2 start ([.parent, .parent, .child .B, .child .A] ++
          List.replicate 13 (.child .A) ++
          [.child .B, .parent, .parent, .parent, .parent, .child .B, .child .B, .child .B])).map
        (fun w => (finished w.a.pc, finished w.b.pc, w.shm.file)) =
        some (true, true, [⟨1, 1⟩, ⟨2, 1⟩, ⟨3, 2⟩]) ∧
      along turnsApart 3 2 start ([.parent, .parent, .child .B, .child .A] ++
          List.replicate 13 (.child .A) ++
          [.child .B, .parent, .parent, .parent, .parent, .child .B, .child .B, .child .B]) =
        true ∧
      along cursorLive 3 2 start ([.parent, .parent, .child .B, .child .A] ++
          List.replicate 13 (.child .A) ++
          [.child .B, .parent, .parent, .parent, .parent, .child .B, .child .B, .child .B]) =
        true) ∧
    ((run 1 3 start ([.parent, .parent, .child .B, .child .A] ++
          List.replicate 7 (.child .A) ++ List.replicate 7 (.child .B))).map
        (fun w => (finished w.a.pc, finished w.b.pc, w.shm.file)) =
        some (true, true, [⟨1, 1⟩, ⟨0, 2⟩, ⟨1, 2⟩]) ∧
      along turnsApart 1 3 start ([.parent, .parent, .child .B, .child .A] ++
          List.replicate 7 (.child .A) ++ List.replicate 7 (.child .B)) = true ∧
      along (offsetKept 1) 1 3 start ([.parent, .parent, .child .B, .child .A] ++
          List.replicate 7 (.child .A) ++ List.replicate 7 (.child .B)) = true) := by
  decide

/-- C10, amended. For every `C ≥ 1` and every `N` that is not a multiple of `C`, in every
execution, call by call, in which producer turns do not overlap (`turnsApart`), every turn
reads the row counter while the semaphore set exists (`cursorLive`), and the parent does no
`lseek` and no `readRowFromShm` while a child is between its `lseek(SEEK_END)` and the end of
its `for` loop (`offsetKept`): once a child has taken its last turn the row counter is
`(N / C) * C`; and once both children have taken their last turn the file holds rows
`1, ..., N` followed by the tail rows `(N / C) * C + 1, ..., N` a second time, that is
`N + N % C` records (1025 for `N = 1000`, `C = 75`), every tail row number twice and every
other row number once. -/
theorem tail_rows_written_twice (N C : Nat) (hC : 1 ≤ C) (hN : N % C ≠ 0)
    (sched : List Actor) (w : World) (h : run N C start sched = some w)
    (ha : along turnsApart N C start sched = true)
    (hl : along cursorLive N C start sched = true)
    (hq : along (offsetKept N) N C start sched = true) :
    (1 ≤ finishedCount w → w.sem.sem0 = N / C * C ∧
      (w.removed = false → semctlGetval w = ((N / C * C : Nat) : Int))) ∧
    (finished w.a.pc = true → finished w.b.pc = true →
      w.shm.file.map Row.rowIndex = List.range' 1 N ++ List.range' (N / C * C + 1) (N % C) ∧
      w.shm.file.length = N + N % C ∧ N < w.shm.file.length ∧
      (∀ r, N / C * C < r → r ≤ N → (w.shm.file.map Row.rowIndex).count r = 2) ∧
      (∀ r, 1 ≤ r → r ≤ N / C * C → (w.shm.file.map Row.rowIndex).count r = 1) ∧
      (N = NUM_ROW_ALL → C = NUM_ROW_PART → w.shm.file.length = 1025)) := by
  have hrun := run_good True N C hC (Or.inl trivial) sched start w [] (turnInv_start N C)
    (fileInv_start True N C) ha hl (fun _ => hq) h
  rw [List.nil_append] at hrun
  have hdm : C * (N / C) + N % C = N := Nat.div_add_mod N C
  rcases hrun with ⟨⟨t1, t2, _⟩, f1, _⟩ | hs
  · have hcur : 1 ≤ finishedCount w → w.sem.sem0 = N / C * C := by
      intro hex
      have hmin : min (turnLog N C start sched).length (N / C) = N / C := by omega
      rw [t1, hmin, Nat.mul_comm]
    refine ⟨?_, ?_⟩
    · intro hex
      refine ⟨hcur hex, ?_⟩
      intro hrem
      simp [semctlGetval, hrem, hcur hex]
    intro hfa hfb
    have hpa : w.a.pc ≠ .iter := by intro hh; rw [hh] at hfa; simp [finished] at hfa
    have hpb : w.b.pc ≠ .iter := by intro hh; rw [hh] at hfb; simp [finished] at hfb
    have hex : finishedCount w = 2 := by simp [finishedCount, hfa, hfb]
    have hcomm : N / C * C = C * (N / C) := Nat.mul_comm _ _
    have hfile : w.shm.file.map Row.rowIndex =
        List.range' 1 N ++ List.range' (N / C * C + 1) (N % C) := by
      rw [f1]
      simp only [partRows, hpa, hpb, if_false, List.append_nil]
      rw [fileFrom_index N C hC, ← t2, hex, hcomm]
      have hmin : min (turnLog N C start sched).length (N / C) = N / C := by omega
      rw [hmin]
      simp only [List.replicate, List.flatten_cons, List.flatten_nil, List.append_nil]
      rw [← List.append_assoc, Nat.add_comm (C * (N / C)) 1, List.range'_append_1,
        Nat.add_comm (N % C), hdm]
    have hlen : w.shm.file.length = N + N % C := by
      have := congrArg List.length hfile
      simpa using this
    refine ⟨hfile, hlen, by omega, ?_, ?_, ?_⟩
    · intro r hr1 hr2
      rw [hfile, List.count_append,
        List.count_eq_one_of_mem (List.nodup_range' 1 N) (by rw [List.mem_range'_1]; omega),
        List.count_eq_one_of_mem (List.nodup_range' _ _) (by rw [List.mem_range'_1]; omega)]
    · intro r hr1 hr2
      rw [hfile, List.count_append,
        List.count_eq_one_of_mem (List.nodup_range' 1 N) (by rw [List.mem_range'_1]; omega),
        List.count_eq_zero_of_not_mem (by rw [List.mem_range'_1]; omega)]
    · intro hN1 hC1
      rw [hlen, hN1, hC1]
      decide
  · obtain ⟨_, _, k3, _⟩ := hs
    refine ⟨?_, ?_⟩
    · intro hex; omega
    · intro hfa _
      simp [finishedCount, hfa] at k3

/-- C10 (amended) on a run with `N = 3`, `C = 2` in which both children take their last
turn. -/
theorem tail_rows_written_twice_witness :
    (1 ≤ 2) ∧ (3 % 2 ≠ 0) ∧
    run 3 2 start ([.parent, .parent, .child .B, .child .A] ++ List.replicate 13 (.child .A) ++
        List.replicate 6 (.child .B)) =
      some ⟨⟨[⟨1, 1⟩, ⟨2, 1⟩, ⟨3, 1⟩, ⟨3, 2⟩], 4⟩, ⟨2, 0⟩, false, ⟨.returned, ⟨1, 0⟩, 4, 1⟩,
        ⟨.returned, ⟨1, 0⟩, 4, 1⟩, ⟨.loop, ⟨0, 1⟩, 0, 0, []⟩⟩ ∧
    ([⟨1, 1⟩, ⟨2, 1⟩, ⟨3, 1⟩, ⟨3, 2⟩] : List Row).length = 3 + 3 % 2 :=
  ⟨by decide, by decide, by decide,
    ((tail_rows_written_twice 3 2 (by decide) (by decide)
      ([.parent, .parent, .child .B, .child .A] ++ List.replicate 13 (.child .A) ++
        List.replicate 6 (.child .B))
      ⟨⟨[⟨1, 1⟩, ⟨2, 1⟩, ⟨3, 1⟩, ⟨3, 2⟩], 4⟩, ⟨2, 0⟩, false, ⟨.returned, ⟨1, 0⟩, 4, 1⟩,
        ⟨.returned, ⟨1, 0⟩, 4, 1⟩, ⟨.loop, ⟨0, 1⟩, 0, 0, []⟩⟩
      (by decide) (by decide) (by decide) (by decide)).2 rfl rfl).2.1⟩

end Kontr2
